import Mathlib

/-!
Shallow embedding of the EXR-style reader core (channel cataloging, mip
resolution, lazy part initialization, chunked scanline/tile decoding and the
missing-data filler), translated from the C++ source of this repository.

Modelling conventions, fixed once for the whole file:
* C++ `int` arithmetic is modelled by `Int`; `/` and `%` on C++ ints truncate
  toward zero, so they are modelled by `Int.tdiv` / `Int.tmod`.
* C++ `float` values are modelled by `ℚ`; the values handled by the claims
  (fill colors, 0, magnitudes) are exact in every binary floating-point
  format wide enough to hold them, so field arithmetic on `ℚ` is faithful.
* Strings are Lean `String`s; `string_view::operator<` is byte-lexicographic
  which for the ASCII channel names at issue is `svLt` below, and
  `Strutil::iequals` is ASCII case-insensitive equality.
* The external chunk codec (`exr_read_*_block_info`, `exr_decoding_*`) is a
  black box: each call site consults an oracle `... → DecodeStage → Bool`
  telling whether that codec call succeeds, and the bytes a successful chunk
  decode delivers for scanline `r` are an abstract `D r`.
* `std::sort` guarantees only that its output is a permutation of its input
  that is sorted with respect to the comparator; it is *not* stable.  The
  relation `IsStdSortResult` captures exactly this contract.  Where an
  executable pipeline is needed and the property at issue is invariant under
  the choice of conforming output (membership / multiset facts), one
  conforming realization (`List.insertionSort`) is used.
-/

set_option maxHeartbeats 1000000

namespace OpenEXRCore

/-- Pixel data type of an EXR channel (`exr_pixel_type_t` restricted to the
three encodings the reader supports, cf. `TypeDesc_from_ImfPixelType`). -/
inductive PixelType where
  | uint
  | half
  | float
deriving DecidableEq, Repr, Inhabited

/-- One entry of the on-disk channel list (`exr_attr_chlist_entry_t`): the
full channel name, its pixel type and its x/y subsampling factors. -/
structure ChlistEntry where
  name : String
  ptype : PixelType
  xSampling : Int
  ySampling : Int
deriving DecidableEq, Repr, Inhabited

/-- `split_name`: split a full channel name at the *last* '.'; the layer is
everything up to and including that dot (empty if there is no dot) and the
suffix is the remainder (the whole name if there is no dot). -/
def split_name (fullname : String) : String × String :=
  let cs := fullname.toList
  let rsuf := cs.reverse.takeWhile (fun c => c ≠ '.')
  if rsuf.length = cs.length then ("", fullname)
  else (String.mk (cs.take (cs.length - rsuf.length)), String.mk rsuf.reverse)

/-- `Strutil::iequals`: case-insensitive string equality (ASCII folding). -/
def iequals (a b : String) : Bool :=
  a.toList.map Char.toLower == b.toList.map Char.toLower

/-- Byte-lexicographic strict order on character lists, the semantics of
`string_view::operator<` for the ASCII names handled here. -/
def svLt : List Char → List Char → Bool
  | [], [] => false
  | [], _ :: _ => true
  | _ :: _, [] => false
  | a :: as, b :: bs => if a < b then true else if b < a then false else svLt as bs

/-- `operator<` on the `string_view` fields of `ChanNameHolder`. -/
def strLt (a b : String) : Bool := svLt a.toList b.toList

/-- `ChanNameHolder`: channel information held for sorting into canonical
order.  `special_index` starts at the sentinel 10000. -/
structure ChanNameHolder where
  fullname : String
  layer : String
  suffix : String
  exr_channel_number : Int
  special_index : Nat
  ptype : PixelType
  xSampling : Int
  ySampling : Int
deriving DecidableEq, Repr, Inhabited

/-- The `ChanNameHolder` constructor: record the on-disk channel index, set
the sentinel `special_index`, and split the name into layer and suffix. -/
def mkChanNameHolder (n : Int) (e : ChlistEntry) : ChanNameHolder :=
  { fullname := e.name
    layer := (split_name e.name).1
    suffix := (split_name e.name).2
    exr_channel_number := n
    special_index := 10000
    ptype := e.ptype
    xSampling := e.xSampling
    ySampling := e.ySampling }

/-- The reserved-name table of `compute_special_index` (usual sort order). -/
def specialNames : List String :=
  ["R", "Red", "G", "Green", "B", "Blue", "Y",
   "real", "imag", "A", "Alpha", "AR", "RA", "AG",
   "GA", "AB", "BA", "Z", "Depth", "Zback"]

/-- The reserved-name table of `compute_special_index_xyz` (layers that
contain x,y,z). -/
def specialNamesXYZ : List String :=
  ["R", "Red", "G", "Green", "B", "Blue",
   "X", "Y", "Z", "real", "imag", "A", "Alpha", "AR",
   "RA", "AG", "GA", "AB", "BA", "Depth", "Zback"]

/-- The scan loop shared by both `compute_special_index*` functions: walk the
table from position `i`, return the position of the first case-insensitive
match of the suffix, or `none` when the table is exhausted. -/
def specialLookup (suffix : String) : List String → Nat → Option Nat
  | [], _ => none
  | t :: ts, i => if iequals suffix t then some i else specialLookup suffix ts (i + 1)

/-- `ChanNameHolder::compute_special_index`: set `special_index` to the
position of the first case-insensitive match in `specialNames`; leave it
unchanged (the sentinel) when nothing matches. -/
def ChanNameHolder.compute_special_index (c : ChanNameHolder) : ChanNameHolder :=
  match specialLookup c.suffix specialNames 0 with
  | some i => { c with special_index := i }
  | none => c

/-- `ChanNameHolder::compute_special_index_xyz`: same, against
`specialNamesXYZ`. -/
def ChanNameHolder.compute_special_index_xyz (c : ChanNameHolder) : ChanNameHolder :=
  match specialLookup c.suffix specialNamesXYZ 0 with
  | some i => { c with special_index := i }
  | none => c

/-- `ChanNameHolder::compare_layer`: partial sort predicate on layer only. -/
def ChanNameHolder.compare_layer (a b : ChanNameHolder) : Bool :=
  strLt a.layer b.layer

/-- `ChanNameHolder::compare_cnh`: full sort predicate on layer name, special
index, suffix. -/
def ChanNameHolder.compare_cnh (a b : ChanNameHolder) : Bool :=
  if strLt a.layer b.layer then true
  else if strLt b.layer a.layer then false
  else if a.special_index < b.special_index then true
  else if b.special_index < a.special_index then false
  else strLt a.suffix b.suffix

/-- `suffixfound`: is the name case-insensitively among the suffixes of the
channel span? -/
def suffixfound (name : String) (chans : List ChanNameHolder) : Bool :=
  chans.any (fun c => iequals name c.suffix)

/-- The contract of `std::sort(first, last, cmp)`: the output is a
permutation of the input, sorted with respect to the strict comparator (no
later element compares before an earlier one).  The C++ standard promises
nothing more — in particular not stability. -/
def IsStdSortResult (cmp : ChanNameHolder → ChanNameHolder → Bool)
    (input output : List ChanNameHolder) : Prop :=
  output.Perm input ∧ output.Pairwise (fun a b => cmp b a = false)

/-- `layerLT` as a decidable relation for the executable realization of the
layer-only sort pass. -/
def layerLT (a b : ChanNameHolder) : Prop := ChanNameHolder.compare_layer a b = true

instance : DecidableRel layerLT := fun _ _ => instDecidableEqBool _ _

/-- `cnhLT` as a decidable relation for the executable realization of the
within-layer sort pass. -/
def cnhLT (a b : ChanNameHolder) : Prop := ChanNameHolder.compare_cnh a b = true

instance : DecidableRel cnhLT := fun _ _ => instDecidableEqBool _ _

/-- One conforming realization of `std::sort(..., compare_layer)` (any
sorted permutation conforms; claims stated over this pipeline are invariant
under the choice because they only use membership). -/
def sortByLayer (cs : List ChanNameHolder) : List ChanNameHolder :=
  List.insertionSort layerLT cs

/-- The contiguous run of channels at the head of the list whose layer equals
`l`, and the remainder: the `[layerbegin, layerend)` subrange identification
of `query_channels`. -/
def spanLayer (l : String) : List ChanNameHolder → List ChanNameHolder × List ChanNameHolder
  | [] => ([], [])
  | c :: rest =>
    if c.layer = l then
      let p := spanLayer l rest
      (c :: p.1, p.2)
    else ([], c :: rest)

/-- Partition a channel list into its contiguous same-layer subranges, in
order (the outer loop of `query_channels`).  Structured with a fuel
parameter equal to the list length so that it is kernel-computable; the fuel
never runs out (`spanLayer` consumes at least the first element). -/
def layerGroupsAux : Nat → List ChanNameHolder → List (List ChanNameHolder)
  | 0, _ => []
  | _ + 1, [] => []
  | fuel + 1, c :: rest =>
    let p := spanLayer c.layer rest
    (c :: p.1) :: layerGroupsAux fuel p.2

/-- The contiguous same-layer groups of a channel list. -/
def layerGroups (cs : List ChanNameHolder) : List (List ChanNameHolder) :=
  layerGroupsAux cs.length cs

/-- Body of the per-layer loop of `query_channels`: if suffix "X" and at
least one of "Y"/"Z" occur in the group, assign the xyz special indices,
otherwise the usual ones; then sort the group with `compare_cnh`
(`std::sort`; one conforming realization). -/
def processGroup (g : List ChanNameHolder) : List ChanNameHolder :=
  let g' :=
    if suffixfound "X" g && (suffixfound "Y" g || suffixfound "Z" g) then
      g.map ChanNameHolder.compute_special_index_xyz
    else
      g.map ChanNameHolder.compute_special_index
  List.insertionSort cnhLT g'

/-- Structured form of the per-channel error message
"Subsampled channels are not supported (channel ... has sampling x,y)." -/
structure SubsampleError where
  name : String
  xs : Int
  ys : Int
deriving DecidableEq, Repr

/-- State threaded through the final scan loop of `query_channels`. -/
structure ScanState where
  alpha_channel : Int
  z_channel : Int
  ok : Bool
  errors : List SubsampleError
deriving DecidableEq, Repr

/-- The final loop of `query_channels` over the canonical sequence: record
the first alpha and depth channels, and flag + report every channel with
x or y sampling different from 1. -/
def finalScan : List ChanNameHolder → Int → ScanState → ScanState
  | [], _, st => st
  | c :: rest, idx, st =>
    let alpha' :=
      if st.alpha_channel < 0 && (iequals c.suffix "A" || iequals c.suffix "Alpha")
      then idx else st.alpha_channel
    let z' :=
      if st.z_channel < 0 && (iequals c.suffix "Z" || iequals c.suffix "Depth")
      then idx else st.z_channel
    let bad := c.xSampling ≠ 1 || c.ySampling ≠ 1
    finalScan rest (idx + 1)
      { alpha_channel := alpha'
        z_channel := z'
        ok := if bad then false else st.ok
        errors := if bad then st.errors ++ [⟨c.fullname, c.xSampling, c.ySampling⟩] else st.errors }

/-- Result of `PartInfo::query_channels`. -/
structure QueryChannelsResult where
  ok : Bool
  nchannels : Int
  channels : List ChanNameHolder
  alpha_channel : Int
  z_channel : Int
  errors : List SubsampleError
deriving DecidableEq, Repr

/-- `PartInfo::query_channels`: build the `ChanNameHolder`s in on-disk
order, fail on an empty channel list, sort by layer, process each contiguous
layer group, and run the final cataloging scan. -/
def query_channels (entries : List ChlistEntry) : QueryChannelsResult :=
  let cnh := entries.enum.map (fun p => mkChanNameHolder (Int.ofNat p.1) p.2)
  if cnh.length = 0 then
    { ok := false, nchannels := 0, channels := [], alpha_channel := -1, z_channel := -1, errors := [] }
  else
    let sorted := sortByLayer cnh
    let processed := (layerGroups sorted).flatMap processGroup
    let st := finalScan processed 0 { alpha_channel := -1, z_channel := -1, ok := true, errors := [] }
    { ok := st.ok
      nchannels := Int.ofNat processed.length
      channels := processed
      alpha_channel := st.alpha_channel
      z_channel := st.z_channel
      errors := st.errors }

/-- The positional lookup described by the spec: position of the first
case-insensitive match of the suffix in the table, 10000 when none matches.
(Spec-side counterpart used to state the C5 claim.) -/
def specialIndexOfTable (table : List String) (suffix : String) : Nat :=
  match table.findIdx? (fun t => iequals suffix t) with
  | some i => i
  | none => 10000

/-- `exr_tile_level_mode_t` as used by `compute_mipres`. -/
inductive LevelMode where
  | oneLevel
  | mipmapLevels
  | ripmapLevels
deriving DecidableEq, Repr, Inhabited

/-- `exr_tile_round_mode_t`. -/
inductive RoundingMode where
  | down
  | up
deriving DecidableEq, Repr, Inhabited

/-- One iteration of the halving loop of `compute_mipres` for one dimension:
`w = w / 2` (C++ truncating division) for round-down, `w = (w + 1) / 2` for
round-up, then `w = std::max(1, w)`. -/
def mipHalveStep (rm : RoundingMode) (w : Int) : Int :=
  let w' :=
    match rm with
    | .down => Int.tdiv w 2
    | .up => Int.tdiv (w + 1) 2
  max 1 w'

/-- The `for (int m = miplevel; m; --m)` loop of `compute_mipres`: apply the
halving step to both dimensions `miplevel` times. -/
def mipLoop (rm : RoundingMode) : Nat → Int × Int → Int × Int
  | 0, wh => wh
  | m + 1, wh => mipLoop rm m (mipHalveStep rm wh.1, mipHalveStep rm wh.2)

/-- The level-dimension computation of `PartInfo::compute_mipres`: one-level
mode returns early (the spec is already correct at the top size); mipmap
mode runs the halving loop; ripmap mode is unimplemented in the source
(`// FIXME`), leaving the top dimensions. -/
def compute_mipres (levelmode : LevelMode) (rm : RoundingMode) (miplevel : Nat)
    (topwidth topheight : Int) : Int × Int :=
  match levelmode with
  | .oneLevel => (topwidth, topheight)
  | .mipmapLevels => mipLoop rm miplevel (topwidth, topheight)
  | .ripmapLevels => (topwidth, topheight)

/-- MipResolver as worded by the spec: iteratively halve width and height
`miplevel` times, flooring for round-down and using `(w+1)/2` (the integer
ceiling) for round-up, clamping both dimensions to a minimum of 1 after each
step.  (Spec-side counterpart used to state the C6 claim; `Int.fdiv` is
mathematical floor division.) -/
def specMipHalveStep (rm : RoundingMode) (w : Int) : Int :=
  let w' :=
    match rm with
    | .down => Int.fdiv w 2
    | .up => Int.fdiv (w + 1) 2
  max 1 w'

/-- Spec-side halving iteration for the C6 claim. -/
def specMipDims (rm : RoundingMode) : Nat → Int × Int → Int × Int
  | 0, wh => wh
  | m + 1, wh => specMipDims rm m (specMipHalveStep rm wh.1, specMipHalveStep rm wh.2)

/-- Per-part state relevant to lazy initialization: the `initialized` flag,
the part's channel list, its mip level count, and two flags abstracting the
external header reads done by `parse_header` before and after
`query_channels` (window/storage/tile lookups, attribute enumeration). -/
structure PartInfo where
  initialized : Bool
  headerPreOk : Bool
  headerPostOk : Bool
  entries : List ChlistEntry
  nmiplevels : Int
deriving DecidableEq, Repr, Inhabited

/-- `PartInfo::parse_header` outcome: immediately true when already
initialized; otherwise true only when the external header reads and
`query_channels` all succeed.  (Field population is abstracted; a part that
fails to parse is left with `initialized = false` — the flag is set by the
caller `seek_subimage` only on success.) -/
def parse_header (p : PartInfo) : Bool :=
  p.initialized || (p.headerPreOk && (query_channels p.entries).ok && p.headerPostOk)

/-- Reader state touched by `seek_subimage`: the part table and the current
(subimage, miplevel) cursor.  `m_nsubimages` equals the part table length
(`m_parts.resize(m_nsubimages)` in `open`). -/
structure ReaderState where
  parts : List PartInfo
  m_subimage : Int
  m_miplevel : Int
deriving DecidableEq, Repr

/-- `m_nsubimages`. -/
def ReaderState.m_nsubimages (st : ReaderState) : Int := Int.ofNat st.parts.length

/-- `OpenEXRInput::seek_subimage`: reject an out-of-range subimage; lazily
parse the part header, failing (state unchanged) when the parse fails; set
`m_subimage`; then reject an out-of-range miplevel (returning false but with
`m_subimage` already updated); finally set `m_miplevel`.  The `m_spec`
assignment and `compute_mipres` call do not affect the modelled fields. -/
def seek_subimage (st : ReaderState) (subimage miplevel : Int) : Bool × ReaderState :=
  if subimage < 0 || subimage ≥ st.m_nsubimages then (false, st)
  else
    let part := st.parts.getD subimage.toNat default
    if !part.initialized && !parse_header part then (false, st)
    else
      let parts' :=
        if part.initialized then st.parts
        else st.parts.set subimage.toNat { part with initialized := true }
      let st1 : ReaderState := { parts := parts', m_subimage := subimage, m_miplevel := st.m_miplevel }
      if miplevel < 0 || miplevel ≥ part.nmiplevels then (false, st1)
      else (true, { st1 with m_miplevel := miplevel })

/-- `std::vector<float>::resize(n, fill)`: truncate to `n` elements or pad
with copies of `fill` up to `n` elements. -/
def vecResize (l : List ℚ) (n : Nat) (fill : ℚ) : List ℚ :=
  if n ≤ l.length then l.take n else l ++ List.replicate (n - l.length) fill

/-- `fabsf`. -/
def fabs (q : ℚ) : ℚ := if q < 0 then -q else q

/-- `OpenEXRInput::check_fill_missing`, value-level: `none` when no missing
color is configured (the function returns false); otherwise the value
written at pixel `(x, y)`, channel `ch` of the requested rectangle — `none`
for a channel whose format is neither float nor half (such bytes are left
untouched).  The configured vector is resized to `chend` entries padded with
its last value; a negative first component enables stripe mode with its
magnitude as the value, and on a pixel with `(x - y) & 8` nonzero the
written value is 0. -/
def check_fill_missing (missingcolor : List ℚ) (formats : Nat → PixelType)
    (xbegin xend ybegin yend chbegin chend : Int) :
    Option (Int → Int → Int → Option ℚ) :=
  if missingcolor = [] then none
  else
    let mc := vecResize missingcolor chend.toNat (missingcolor.getLastD 0)
    let stripe := decide (mc.getD 0 0 < 0)
    let mc' := if stripe then mc.set 0 (fabs (mc.getD 0 0)) else mc
    some (fun x y ch =>
      if xbegin ≤ x && x < xend && ybegin ≤ y && y < yend
          && chbegin ≤ ch && ch < chend then
        match formats ch.toNat with
        | .float | .half =>
          some (if stripe && Int.land (x - y) 8 ≠ 0 then 0 else mc'.getD ch.toNat 0)
        | .uint => none
      else none)

/-- A `std::vector<float>` value: its live contents (up to `size()`) and its
reserved capacity.  `operator[]` at or beyond `size()` writes raw memory
that is not part of the vector's value and never changes `size()`. -/
structure FloatVector where
  elems : List ℚ
  capacity : Nat
deriving DecidableEq, Repr, Inhabited

/-- `clear()`. -/
def FloatVector.clear (v : FloatVector) : FloatVector := { v with elems := [] }

/-- `reserve(n)`: capacity grows, contents and size unchanged. -/
def FloatVector.reserve (v : FloatVector) (n : Nat) : FloatVector :=
  { v with capacity := max v.capacity n }

/-- `v[i] = q`: in-bounds writes update the element; writes at or beyond
`size()` do not change the vector's value. -/
def FloatVector.writeAt (v : FloatVector) (i : Nat) (q : ℚ) : FloatVector :=
  if i < v.elems.length then { v with elems := v.elems.set i q } else v

/-- The "oiio:missingcolor" configuration attribute as `open` receives it:
absent, a string (already extracted to floats), or a numeric array. -/
inductive MissingColorConfig where
  | absent
  | asString (vals : List ℚ)
  | asNumericArray (vals : List ℚ)
deriving DecidableEq, Repr

/-- The missing-color capture block of `OpenEXRInput::open`: a string
attribute is extracted and assigned; a numeric array is captured by
`clear()`, `reserve(n)` and `n` writes through `operator[]`; with no
attribute, a non-empty process-wide "missingcolor" string is extracted and
assigned. -/
def open_missingcolor (cfg : MissingColorConfig) (globalmc : Option (List ℚ))
    (prev : FloatVector) : FloatVector :=
  match cfg with
  | .asString vals => { prev with elems := vals }
  | .asNumericArray vals =>
    let v1 := (prev.clear).reserve vals.length
    (List.range vals.length).foldl (fun v i => v.writeAt i (vals.getD i 0)) v1
  | .absent =>
    match globalmc with
    | some vals => { prev with elems := vals }
    | none => prev

/-- The codec calls a chunk decode makes, in order: block-info lookup,
pipeline initialize (first chunk) or update (later chunks), default-routine
selection (first chunk only), decode run. -/
inductive DecodeStage where
  | blockInfo
  | initPipeline
  | update
  | chooseRoutines
  | run
deriving DecidableEq, Repr

/-- Outcome recorded for one tile of `read_native_tiles`: decoded
successfully, filled by `check_fill_missing`, or failed (no missing color
configured). -/
inductive TileOutcome where
  | decoded
  | filled
  | failed
deriving DecidableEq, Repr

/-- Body of the inner tile loop of `read_native_tiles` for the tile at
`(curxtile, curytile)`: on any codec failure the tile is filled (or marked
failed) and the loop continues; `first` stays true until the first tile that
gets past default-routine selection.  `fillOk` is the result of the
`check_fill_missing` call for this tile's region.  Returns the updated
`first` and `retval` and the tile's outcome. -/
def processTile (oracle : Int → Int → DecodeStage → Bool) (fillOk : Bool)
    (first retval : Bool) (curxtile curytile : Int) : Bool × Bool × TileOutcome :=
  let fill := fun (first' : Bool) =>
    (first', retval && fillOk, if fillOk then TileOutcome.filled else TileOutcome.failed)
  if !oracle curxtile curytile .blockInfo then fill first
  else if !(if first then oracle curxtile curytile .initPipeline
            else oracle curxtile curytile .update) then fill first
  else if first && !oracle curxtile curytile .chooseRoutines then fill first
  else if !oracle curxtile curytile .run then fill false
  else (false, retval, .decoded)

/-- The double loop of `read_native_tiles` over the row-major tile grid,
threading `first` and `retval` and recording each tile's outcome.  Each
tile's `check_fill_missing` call receives that tile's sub-rectangle of the
request, exactly as at the source call sites. -/
def read_native_tiles_loop (oracle : Int → Int → DecodeStage → Bool)
    (missing : List ℚ) (formats : Nat → PixelType)
    (xbegin ybegin chbegin chend tilew tileh firstxtile firstytile : Int) :
    List (Nat × Nat) → Bool → Bool → List (Nat × Nat × TileOutcome) →
    Bool × List (Nat × Nat × TileOutcome)
  | [], _, retval, evs => (retval, evs)
  | (ty, tx) :: rest, first, retval, evs =>
    let curxtile := firstxtile + Int.ofNat tx
    let curytile := firstytile + Int.ofNat ty
    let fillOk :=
      (check_fill_missing missing formats
        (xbegin + Int.ofNat tx * tilew) (xbegin + (Int.ofNat tx + 1) * tilew)
        (ybegin + Int.ofNat ty * tileh) (ybegin + (Int.ofNat ty + 1) * tileh)
        chbegin chend).isSome
    let r := processTile oracle fillOk first retval curxtile curytile
    read_native_tiles_loop oracle missing formats xbegin ybegin chbegin chend
      tilew tileh firstxtile firstytile rest r.1 r.2.1 (evs ++ [(ty, tx, r.2.2)])

/-- The row-major tile grid `(ty, tx)` for `0 ≤ ty < nytiles`,
`0 ≤ tx < nxtiles`. -/
def tileGrid (nytiles nxtiles : Nat) : List (Nat × Nat) :=
  (List.range nytiles).flatMap (fun ty => (List.range nxtiles).map (fun tx => (ty, tx)))

/-- `OpenEXRInput::read_native_tiles` after the request has been clamped and
the tile counts computed: run the double loop with `first = true` and
`retval = true`. -/
def read_native_tiles (oracle : Int → Int → DecodeStage → Bool)
    (missing : List ℚ) (formats : Nat → PixelType)
    (xbegin ybegin chbegin chend tilew tileh firstxtile firstytile : Int)
    (nxtiles nytiles : Nat) : Bool × List (Nat × Nat × TileOutcome) :=
  read_native_tiles_loop oracle missing formats xbegin ybegin chbegin chend
    tilew tileh firstxtile firstytile (tileGrid nytiles nxtiles) true true []

/-- All codec calls made for the scanline chunk whose block starts at
`ystart` succeed; `first` selects initialize + routine selection versus
update, mirroring the scanline loop body. -/
def scanChunkOK (oracle : Int → DecodeStage → Bool) (first : Bool) (ystart : Int) : Bool :=
  oracle ystart .blockInfo
    && (if first then oracle ystart .initPipeline else oracle ystart .update)
    && (!first || oracle ystart .chooseRoutines)
    && oracle ystart .run

/-- Contents of row `r` of the scratch buffer after a chunk decode: the
decoder writes the rows that lie inside the image's data window (`D r`);
any other row of the scratch buffer keeps unspecified bytes (`junk r`). -/
def chunkRow (specy h : Int) (D junk : Int → β) (r : Int) : β :=
  if specy ≤ r ∧ r < specy + h then D r else junk r

/-- The rows `f a, f (a+1), ..., f (a+n-1)`. -/
def intRangeMap (f : Int → β) (a : Int) : Nat → List β
  | 0 => []
  | n + 1 => f a :: intRangeMap f (a + 1) n

/-- The scanline loop of `OpenEXRInput::read_native_scanlines`, scanline
range `[y, yend)` remaining, with the rows already delivered to the caller
buffer accumulated in order in `acc`: an unaligned start decodes the whole
containing chunk into scratch and copies out only the requested rows; a
chunk overhanging `yend` but not the image bottom likewise goes through
scratch; otherwise the chunk decodes directly into the caller buffer.  Any
codec failure breaks out, returning false.  The fuel parameter makes the
loop kernel-computable; `(yend - ybegin).toNat + 1` is always sufficient
because every iteration advances `y` by at least one scanline. -/
def read_native_scanlines_loop (specy h spc : Int) (oracle : Int → DecodeStage → Bool)
    (D junk : Int → β) (yend : Int) :
    Nat → Int → Bool → List β → Bool × List β
  | 0, _, _, acc => (false, acc)
  | fuel + 1, y, first, acc =>
    if y < yend then
      let invalid := Int.tmod (y - specy) spc
      if invalid ≠ 0 then
        let ystart := y - invalid
        if scanChunkOK oracle first ystart then
          let nlines := min (spc - invalid) (yend - y)
          read_native_scanlines_loop specy h spc oracle D junk yend fuel (y + nlines) false
            (acc ++ intRangeMap (chunkRow specy h D junk) y nlines.toNat)
        else (false, acc)
      else if y + spc > yend && y + spc < specy + h then
        if scanChunkOK oracle first y then
          read_native_scanlines_loop specy h spc oracle D junk yend fuel yend false
            (acc ++ intRangeMap (chunkRow specy h D junk) y (yend - y).toNat)
        else (false, acc)
      else
        if scanChunkOK oracle first y then
          read_native_scanlines_loop specy h spc oracle D junk yend fuel (y + spc) false
            (acc ++ intRangeMap D y (min spc (specy + h - y)).toNat)
        else (false, acc)
    else (true, acc)

/-- `OpenEXRInput::read_native_scanlines` for the request `[ybegin, yend)`:
returns whether every chunk decoded, and the rows delivered to the caller
buffer in order. -/
def read_native_scanlines (specy h spc : Int) (oracle : Int → DecodeStage → Bool)
    (D junk : Int → β) (ybegin yend : Int) : Bool × List β :=
  read_native_scanlines_loop specy h spc oracle D junk yend
    ((yend - ybegin).toNat + 1) ybegin true []

/-- Chunk-grid success predicate for the scanline path: every chunk of the
grid covering `[y, yend)` passes all the codec calls consulted for it (the
first chunk uses initialize and routine selection, later chunks update). -/
def chunksAllOK (specy spc : Int) (oracle : Int → DecodeStage → Bool) (yend : Int) :
    Nat → Int → Bool → Bool
  | 0, _, _ => false
  | fuel + 1, y, first =>
    if y < yend then
      let ystart := y - Int.tmod (y - specy) spc
      scanChunkOK oracle first ystart && chunksAllOK specy spc oracle yend fuel (ystart + spc) false
    else true

/-!
Theorems.  General-purpose lemmas about the embedded operations come first,
followed by one theorem per claim (with its witness or counterexample).
-/

theorem max_one_tdiv_two_eq_fdiv (a : Int) :
    max 1 (Int.tdiv a 2) = max 1 (Int.fdiv a 2) := by
  rw [Int.fdiv_eq_ediv a (by omega)]
  rcases le_or_lt 0 a with h0 | h0
  · rw [Int.tdiv_eq_ediv h0 (by omega)]
  · have h1 : Int.tdiv (-a) 2 = -Int.tdiv a 2 := Int.neg_tdiv a 2
    have h2 : 0 ≤ Int.tdiv (-a) 2 := Int.tdiv_nonneg (by omega) (by omega)
    have h3 : a / 2 ≤ 0 := by omega
    omega

theorem mipHalveStep_eq_spec (rm : RoundingMode) (w : Int) :
    mipHalveStep rm w = specMipHalveStep rm w := by
  cases rm <;>
    simp only [mipHalveStep, specMipHalveStep] <;>
    exact max_one_tdiv_two_eq_fdiv _

theorem mipLoop_eq_spec (rm : RoundingMode) :
    ∀ (m : Nat) (wh : Int × Int), mipLoop rm m wh = specMipDims rm m wh := by
  intro m
  induction m with
  | zero => intro wh; rfl
  | succ m ih =>
    intro wh
    have h1 : mipLoop rm (m + 1) wh
        = mipLoop rm m (mipHalveStep rm wh.1, mipHalveStep rm wh.2) := rfl
    have h2 : specMipDims rm (m + 1) wh
        = specMipDims rm m (specMipHalveStep rm wh.1, specMipHalveStep rm wh.2) := rfl
    rw [h1, h2, mipHalveStep_eq_spec, mipHalveStep_eq_spec, ih]

/-- C6: for mipmap level mode the per-level dimensions are obtained by
halving the top width and height exactly `miplevel` times, each step taking
the floor of half for rounding-mode down and `(w+1)/2` (the integer
ceiling) for rounding-mode up, clamping both dimensions to a minimum of 1
after each step; in particular a 100x100 top with rounding down gives 50x50
at level 1, 25x25 at level 2 and 1x1 at level 7, and a 3x3 top with
rounding up gives 2x2 at level 1 and 1x1 at level 2. -/
theorem C6_mipmap_dimensions :
    (∀ (rm : RoundingMode) (miplevel : Nat) (w h : Int),
        compute_mipres .mipmapLevels rm miplevel w h = specMipDims rm miplevel (w, h))
    ∧ compute_mipres .mipmapLevels .down 1 100 100 = (50, 50)
    ∧ compute_mipres .mipmapLevels .down 2 100 100 = (25, 25)
    ∧ compute_mipres .mipmapLevels .down 7 100 100 = (1, 1)
    ∧ compute_mipres .mipmapLevels .up 1 3 3 = (2, 2)
    ∧ compute_mipres .mipmapLevels .up 2 3 3 = (1, 1) :=
  ⟨fun rm mip w h => mipLoop_eq_spec rm mip (w, h),
   by decide, by decide, by decide, by decide, by decide⟩

theorem foldl_writeAt_keeps_empty (f : Nat → ℚ) :
    ∀ (l : List Nat) (v : FloatVector), v.elems = [] →
      (l.foldl (fun v i => v.writeAt i (f i)) v).elems = [] := by
  intro l
  induction l with
  | nil => intro v hv; simpa using hv
  | cons a t ih =>
    intro v hv
    have hw : (FloatVector.writeAt v a (f a)).elems = [] := by
      simp [FloatVector.writeAt, hv]
    simpa using ih _ hw

/-- C10: a numeric-array "oiio:missingcolor" configuration is captured by
reserve() and operator[] writes only, which never grow the vector: the
captured missing-color vector stays size zero, and check_fill_missing
subsequently reports that no missing color is configured (returns false),
disabling the tile fill for numeric-array configurations. -/
theorem C10_numeric_missingcolor_dropped :
    ∀ (vals : List ℚ) (g : Option (List ℚ)) (prev : FloatVector)
      (formats : Nat → PixelType) (xb xe yb ye cb ce : Int),
      (open_missingcolor (.asNumericArray vals) g prev).elems = []
      ∧ check_fill_missing (open_missingcolor (.asNumericArray vals) g prev).elems
          formats xb xe yb ye cb ce = none := by
  intro vals g prev formats xb xe yb ye cb ce
  have h1 : (open_missingcolor (.asNumericArray vals) g prev).elems = [] := by
    show ((List.range vals.length).foldl
      (fun v i => v.writeAt i (vals.getD i 0)) ((prev.clear).reserve vals.length)).elems = []
    exact foldl_writeAt_keeps_empty (fun i => vals.getD i 0) _ _ rfl
  refine ⟨h1, ?_⟩
  rw [h1]
  simp [check_fill_missing]

theorem vecResize_length (l : List ℚ) (n : Nat) (d : ℚ) :
    (vecResize l n d).length = n := by
  unfold vecResize
  split
  · rename_i hle
    simp only [List.length_take]
    omega
  · rename_i hgt
    simp only [List.length_append, List.length_replicate]
    omega

theorem vecResize_getD_zero (l : List ℚ) (n : Nat) (d : ℚ) (hl : l ≠ []) (hn : 1 ≤ n) :
    (vecResize l n d).getD 0 0 = l.getD 0 0 := by
  unfold vecResize
  split
  · cases l with
    | nil => exact absurd rfl hl
    | cons a t =>
      cases n with
      | zero => omega
      | succ m => simp
  · cases l with
    | nil => exact absurd rfl hl
    | cons a t => simp

theorem getD_set_self (l : List ℚ) (i : Nat) (v : ℚ) (h : i < l.length) :
    (l.set i v).getD i 0 = v := by
  simp [List.getD_eq_getElem?_getD, List.getElem?_set_self h]

theorem getD_set_other (l : List ℚ) (i j : Nat) (v : ℚ) (h : i ≠ j) :
    (l.set i v).getD j 0 = l.getD j 0 := by
  simp [List.getD_eq_getElem?_getD, List.getElem?_set_ne h]

/-- C1 (amended): when the configured missing color's first component is
negative, stripe mode uses its magnitude as channel 0's base value, and at
every pixel (x, y) of the region with `(x - y) & 8` nonzero the value
written for **every** channel of the requested range — not only channel 0 —
is 0; at every other pixel each channel receives its configured value
(channel 0's being the magnitude). -/
theorem C1_stripe_fill (missing : List ℚ) (formats : Nat → PixelType)
    (xb xe yb ye cb ce x y ch : Int)
    (hne : missing ≠ []) (hneg : missing.getD 0 0 < 0)
    (hcb : 0 ≤ cb) (hce : 1 ≤ ce)
    (hx : xb ≤ x ∧ x < xe) (hy : yb ≤ y ∧ y < ye) (hch : cb ≤ ch ∧ ch < ce)
    (hwr : formats ch.toNat = PixelType.float ∨ formats ch.toNat = PixelType.half) :
    ∃ f, check_fill_missing missing formats xb xe yb ye cb ce = some f
      ∧ f x y ch = some
          (if Int.land (x - y) 8 ≠ 0 then 0
           else if ch = 0 then fabs (missing.getD 0 0)
           else (vecResize missing ce.toNat (missing.getLastD 0)).getD ch.toNat 0) := by
  have hce1 : 1 ≤ ce.toNat := by omega
  have hmc0 : (vecResize missing ce.toNat (missing.getLastD 0)).getD 0 0 = missing.getD 0 0 :=
    vecResize_getD_zero _ _ _ hne hce1
  have hstripe : decide ((vecResize missing ce.toNat (missing.getLastD 0)).getD 0 0 < 0) = true := by
    rw [hmc0]
    simpa using hneg
  unfold check_fill_missing
  rw [if_neg hne]
  simp only [hstripe, if_true]
  refine ⟨_, rfl, ?_⟩
  have hcond : (decide (xb ≤ x) && decide (x < xe) && decide (yb ≤ y) && decide (y < ye)
      && decide (cb ≤ ch) && decide (ch < ce)) = true := by
    simp [hx.1, hx.2, hy.1, hy.2, hch.1, hch.2]
  simp only [hcond, if_true]
  have hval : ((vecResize missing ce.toNat (missing.getLastD 0)).set 0
        (fabs ((vecResize missing ce.toNat (missing.getLastD 0)).getD 0 0))).getD ch.toNat 0
      = (if ch = 0 then fabs (missing.getD 0 0)
         else (vecResize missing ce.toNat (missing.getLastD 0)).getD ch.toNat 0) := by
    by_cases hch0 : ch = 0
    · subst hch0
      rw [hmc0]
      exact getD_set_self _ _ _ (by rw [vecResize_length]; omega)
    · have hne0 : (0 : Nat) ≠ ch.toNat := by omega
      rw [if_neg hch0]
      exact getD_set_other _ _ _ _ hne0
  rcases hwr with hf | hf <;> rw [hf] <;>
    by_cases hbit : Int.land (x - y) 8 = 0
  · simp only [hbit, decide_eq_true_eq]
    rw [if_neg (by simp [hbit]), if_neg (by simp [hbit])]
    rw [hval]
  · rw [if_pos (by simp [hbit]), if_pos (by simp [hbit])]
  · rw [if_neg (by simp [hbit]), if_neg (by simp [hbit])]
    rw [hval]
  · rw [if_pos (by simp [hbit]), if_pos (by simp [hbit])]

/-- C1 is refuted as stated: with missing color [-1, 2, 2] (stripe mode,
base value 1) at pixel (9, 1) — where `(9-1) & 8 = 8` is nonzero — channel
1 is also written 0 rather than its configured value 2: the stripe zero is
applied to every channel, not just channel 0. -/
theorem C1_counterexample :
    (match check_fill_missing [-1, 2, 2] (fun _ => PixelType.float) 0 16 0 16 0 3 with
      | some f => f 9 1 1
      | none => none) = some 0
    ∧ (0 : ℚ) ≠ 2 := by
  refine ⟨by decide, by decide⟩

/-- Witness for C1_stripe_fill: missing color [-1, 2, 2], region
[0,16) x [0,16), channels [0,3), pixel (3,3), channel 0 — `(3-3) & 8 = 0`,
so channel 0 receives the magnitude 1. -/
theorem C1_stripe_fill_witness :
    ([-1, 2, 2] : List ℚ) ≠ [] ∧ (([-1, 2, 2] : List ℚ).getD 0 0 < 0)
    ∧ (∃ f, check_fill_missing [-1, 2, 2] (fun _ => PixelType.float) 0 16 0 16 0 3 = some f
        ∧ f 3 3 0 = some
            (if Int.land ((3 : Int) - 3) 8 ≠ 0 then 0
             else if (0 : Int) = 0 then fabs (([-1, 2, 2] : List ℚ).getD 0 0)
             else (vecResize [-1, 2, 2] (3 : Int).toNat
                (([-1, 2, 2] : List ℚ).getLastD 0)).getD (0 : Int).toNat 0)) :=
  ⟨by decide, by decide,
   C1_stripe_fill [-1, 2, 2] (fun _ => PixelType.float) 0 16 0 16 0 3 3 3 0
     (by decide) (by decide) (by decide) (by decide)
     ⟨by decide, by decide⟩ ⟨by decide, by decide⟩ ⟨by decide, by decide⟩ (Or.inl rfl)⟩

/-- C9 (amended): seek_subimage called with an in-range subimage whose part
is initialized (or initializes successfully) but with an out-of-range
miplevel returns false yet still updates the current subimage, leaving the
current miplevel unchanged; an out-of-range subimage — or a failed lazy
part initialization — leaves the whole state (both cursors) unchanged. -/
theorem C9_seek_subimage_effects :
    (∀ (st : ReaderState) (subimage miplevel : Int),
        0 ≤ subimage → subimage < st.m_nsubimages →
        ((st.parts.getD subimage.toNat default).initialized = true
          ∨ parse_header (st.parts.getD subimage.toNat default) = true) →
        (miplevel < 0 ∨ (st.parts.getD subimage.toNat default).nmiplevels ≤ miplevel) →
        (seek_subimage st subimage miplevel).1 = false
        ∧ (seek_subimage st subimage miplevel).2.m_subimage = subimage
        ∧ (seek_subimage st subimage miplevel).2.m_miplevel = st.m_miplevel)
    ∧ (∀ (st : ReaderState) (subimage miplevel : Int),
        subimage < 0 ∨ st.m_nsubimages ≤ subimage →
        seek_subimage st subimage miplevel = (false, st))
    ∧ (∀ (st : ReaderState) (subimage miplevel : Int),
        (st.parts.getD subimage.toNat default).initialized = false →
        parse_header (st.parts.getD subimage.toNat default) = false →
        seek_subimage st subimage miplevel = (false, st)) := by
  refine ⟨?_, ?_, ?_⟩
  · intro st subimage miplevel hge hlt hinit hmip
    have hc1 : (decide (subimage < 0) || decide (subimage ≥ st.m_nsubimages)) = false := by
      simp only [Bool.or_eq_false_iff, decide_eq_false_iff_not]
      omega
    have hc2 : (!(st.parts.getD subimage.toNat default).initialized
        && !parse_header (st.parts.getD subimage.toNat default)) = false := by
      rcases hinit with h | h
      · simp only [h, Bool.not_true, Bool.false_and]
      · simp only [h, Bool.not_true, Bool.and_false]
    have hc3 : (decide (miplevel < 0)
        || decide (miplevel ≥ (st.parts.getD subimage.toNat default).nmiplevels)) = true := by
      simp only [Bool.or_eq_true, decide_eq_true_eq]
      omega
    simp only [seek_subimage, hc1, hc2, hc3, Bool.false_eq_true, if_false, if_true]
    exact ⟨trivial, trivial, trivial⟩
  · intro st subimage miplevel hout
    have hc1 : (decide (subimage < 0) || decide (subimage ≥ st.m_nsubimages)) = true := by
      simp only [Bool.or_eq_true, decide_eq_true_eq]
      omega
    simp only [seek_subimage, hc1, if_true]
  · intro st subimage miplevel hinit hparse
    by_cases hrange : (decide (subimage < 0) || decide (subimage ≥ st.m_nsubimages)) = true
    · simp only [seek_subimage, hrange, if_true]
    · have hc1 : (decide (subimage < 0) || decide (subimage ≥ st.m_nsubimages)) = false := by
        revert hrange
        cases h : (decide (subimage < 0) || decide (subimage ≥ st.m_nsubimages)) <;> simp
      have hc2 : (!(st.parts.getD subimage.toNat default).initialized
          && !parse_header (st.parts.getD subimage.toNat default)) = true := by
        simp only [hinit, hparse, Bool.not_false, Bool.and_self]
      simp only [seek_subimage, hc1, hc2, Bool.false_eq_true, if_false, if_true]

/-- C9 is refuted as stated ("only an out-of-range subimage leaves both
unchanged"): subimage 0 is in range here, but the part's lazy
initialization fails (its header reads fail and its channel list is
empty), so seek returns false with both the current subimage and the
current miplevel unchanged — and the current subimage was not updated. -/
theorem C9_counterexample :
    seek_subimage ⟨[⟨false, false, true, [], 1⟩], -7, -9⟩ 0 0
        = (false, ⟨[⟨false, false, true, [], 1⟩], -7, -9⟩)
    ∧ ¬((0 : Int) < 0 ∨ (ReaderState.mk [⟨false, false, true, [], 1⟩] (-7) (-9)).m_nsubimages ≤ 0)
    ∧ (ReaderState.mk [⟨false, false, true, [], 1⟩] (-7) (-9)).m_subimage ≠ 0 :=
  ⟨by decide, by decide, by decide⟩

/-- Witness for C9_seek_subimage_effects: a single initialized part with 3
mip levels; seeking (0, 5) fails but updates the current subimage from -1
to 0 and leaves the current miplevel at -1. -/
theorem C9_seek_subimage_effects_witness :
    (0 : Int) ≤ 0
    ∧ (0 : Int) < (ReaderState.mk [⟨true, true, true, [], 3⟩] (-1) (-1)).m_nsubimages
    ∧ (seek_subimage ⟨[⟨true, true, true, [], 3⟩], -1, -1⟩ 0 5).1 = false
    ∧ (seek_subimage ⟨[⟨true, true, true, [], 3⟩], -1, -1⟩ 0 5).2.m_subimage = 0
    ∧ (seek_subimage ⟨[⟨true, true, true, [], 3⟩], -1, -1⟩ 0 5).2.m_miplevel = -1 := by
  have h := C9_seek_subimage_effects.1 ⟨[⟨true, true, true, [], 3⟩], -1, -1⟩ 0 5
    (by decide) (by decide) (Or.inl (by decide)) (Or.inr (by decide))
  exact ⟨by decide, by decide, h.1, h.2.1, h.2.2⟩

theorem svLt_antisymm_eq : ∀ (a b : List Char), svLt a b = false → svLt b a = false → a = b := by
  intro a
  induction a with
  | nil =>
    intro b h1 h2
    cases b with
    | nil => rfl
    | cons c cs => simp [svLt] at h1
  | cons x xs ih =>
    intro b h1 h2
    cases b with
    | nil => simp [svLt] at h2
    | cons y ys =>
      by_cases hxy : x < y
      · rw [svLt, if_pos hxy] at h1
        exact absurd h1 (by simp)
      · by_cases hyx : y < x
        · rw [svLt, if_pos hyx] at h2
          exact absurd h2 (by simp)
        · have hxe : x = y := le_antisymm (not_lt.mp hyx) (not_lt.mp hxy)
          subst hxe
          rw [svLt, if_neg hxy, if_neg hxy] at h1
          rw [svLt, if_neg hxy, if_neg hxy] at h2
          rw [ih ys h1 h2]

theorem strLt_antisymm_eq (a b : String) (h1 : strLt a b = false) (h2 : strLt b a = false) :
    a = b :=
  String.ext (svLt_antisymm_eq a.toList b.toList h1 h2)

/-- C4 (amended): the first channel pass sorts by layer key alone, so in
every conforming std::sort output equal layer keys occupy a contiguous run;
but the relative order of equal-layer channels within that run is not
specified, because std::sort is not stable. -/
theorem C4_layer_sort_groups_contiguously (input out : List ChanNameHolder)
    (hs : IsStdSortResult ChanNameHolder.compare_layer input out)
    (i j k : Nat) (hij : i < j) (hjk : j < k) (hk : k < out.length)
    (hik : (out.getD i default).layer = (out.getD k default).layer) :
    (out.getD j default).layer = (out.getD i default).layer := by
  have hi : i < out.length := by omega
  have hj : j < out.length := by omega
  have hp := (List.pairwise_iff_getElem).1 hs.2
  have h1 : ChanNameHolder.compare_layer out[j] out[i] = false := hp i j hi hj hij
  have h2 : ChanNameHolder.compare_layer out[k] out[j] = false := hp j k hj hk hjk
  rw [List.getD_eq_getElem out default hi, List.getD_eq_getElem out default hk] at hik
  rw [List.getD_eq_getElem out default hi, List.getD_eq_getElem out default hj]
  have h2' : strLt (out[i].layer) (out[j].layer) = false := by
    rw [hik]
    exact h2
  exact strLt_antisymm_eq _ _ h1 h2'

/-- C4 is refuted as stated: for the on-disk list ["L.R", "L.G"] (equal
layer "L."), the reversed list is also a conforming std::sort output of
the layer-only pass — the C++ standard does not promise stability for
std::sort — so equal-layer channels need not keep their on-disk relative
order after the first pass. -/
theorem C4_counterexample :
    IsStdSortResult ChanNameHolder.compare_layer
      [mkChanNameHolder 0 ⟨"L.R", .half, 1, 1⟩, mkChanNameHolder 1 ⟨"L.G", .half, 1, 1⟩]
      [mkChanNameHolder 1 ⟨"L.G", .half, 1, 1⟩, mkChanNameHolder 0 ⟨"L.R", .half, 1, 1⟩]
    ∧ (mkChanNameHolder 0 ⟨"L.R", .half, 1, 1⟩).layer
        = (mkChanNameHolder 1 ⟨"L.G", .half, 1, 1⟩).layer
    ∧ [mkChanNameHolder 1 ⟨"L.G", .half, 1, 1⟩, mkChanNameHolder 0 ⟨"L.R", .half, 1, 1⟩]
        ≠ [mkChanNameHolder 0 ⟨"L.R", .half, 1, 1⟩, mkChanNameHolder 1 ⟨"L.G", .half, 1, 1⟩] := by
  refine ⟨⟨by decide, by decide⟩, by decide, by decide⟩

/-- Witness for C4_layer_sort_groups_contiguously: three channels of layer
"L." sorted to themselves; positions 0 < 1 < 2 share the layer, so the
middle one does too. -/
theorem C4_layer_sort_groups_witness :
    IsStdSortResult ChanNameHolder.compare_layer
      [mkChanNameHolder 0 ⟨"L.R", .half, 1, 1⟩, mkChanNameHolder 1 ⟨"L.G", .half, 1, 1⟩,
       mkChanNameHolder 2 ⟨"L.B", .half, 1, 1⟩]
      [mkChanNameHolder 0 ⟨"L.R", .half, 1, 1⟩, mkChanNameHolder 1 ⟨"L.G", .half, 1, 1⟩,
       mkChanNameHolder 2 ⟨"L.B", .half, 1, 1⟩]
    ∧ (([mkChanNameHolder 0 ⟨"L.R", .half, 1, 1⟩, mkChanNameHolder 1 ⟨"L.G", .half, 1, 1⟩,
         mkChanNameHolder 2 ⟨"L.B", .half, 1, 1⟩].getD 0 default).layer
        = ([mkChanNameHolder 0 ⟨"L.R", .half, 1, 1⟩, mkChanNameHolder 1 ⟨"L.G", .half, 1, 1⟩,
            mkChanNameHolder 2 ⟨"L.B", .half, 1, 1⟩].getD 2 default).layer)
    ∧ (([mkChanNameHolder 0 ⟨"L.R", .half, 1, 1⟩, mkChanNameHolder 1 ⟨"L.G", .half, 1, 1⟩,
         mkChanNameHolder 2 ⟨"L.B", .half, 1, 1⟩].getD 1 default).layer
        = ([mkChanNameHolder 0 ⟨"L.R", .half, 1, 1⟩, mkChanNameHolder 1 ⟨"L.G", .half, 1, 1⟩,
            mkChanNameHolder 2 ⟨"L.B", .half, 1, 1⟩].getD 0 default).layer) := by
  have hs : IsStdSortResult ChanNameHolder.compare_layer
      [mkChanNameHolder 0 ⟨"L.R", .half, 1, 1⟩, mkChanNameHolder 1 ⟨"L.G", .half, 1, 1⟩,
       mkChanNameHolder 2 ⟨"L.B", .half, 1, 1⟩]
      [mkChanNameHolder 0 ⟨"L.R", .half, 1, 1⟩, mkChanNameHolder 1 ⟨"L.G", .half, 1, 1⟩,
       mkChanNameHolder 2 ⟨"L.B", .half, 1, 1⟩] := ⟨by decide, by decide⟩
  exact ⟨hs, by decide,
    C4_layer_sort_groups_contiguously _ _ hs 0 1 2 (by decide) (by decide) (by decide) (by decide)⟩

theorem specialLookup_eq_findIdx (s : String) :
    ∀ (tbl : List String) (i : Nat),
      specialLookup s tbl i = tbl.findIdx? (fun t => iequals s t) i := by
  intro tbl
  induction tbl with
  | nil => intro i; rfl
  | cons t ts ih =>
    intro i
    rw [specialLookup, List.findIdx?_cons]
    by_cases h : iequals s t = true
    · rw [if_pos h, if_pos h]
    · rw [if_neg h, if_neg h, ih]

theorem compute_special_index_fields (c : ChanNameHolder) :
    (c.compute_special_index).suffix = c.suffix
    ∧ (c.compute_special_index).fullname = c.fullname
    ∧ (c.compute_special_index).xSampling = c.xSampling
    ∧ (c.compute_special_index).ySampling = c.ySampling := by
  unfold ChanNameHolder.compute_special_index
  cases specialLookup c.suffix specialNames 0 <;> exact ⟨rfl, rfl, rfl, rfl⟩

theorem compute_special_index_xyz_fields (c : ChanNameHolder) :
    (c.compute_special_index_xyz).suffix = c.suffix
    ∧ (c.compute_special_index_xyz).fullname = c.fullname
    ∧ (c.compute_special_index_xyz).xSampling = c.xSampling
    ∧ (c.compute_special_index_xyz).ySampling = c.ySampling := by
  unfold ChanNameHolder.compute_special_index_xyz
  cases specialLookup c.suffix specialNamesXYZ 0 <;> exact ⟨rfl, rfl, rfl, rfl⟩

theorem compute_special_index_value (c : ChanNameHolder) (h : c.special_index = 10000) :
    (c.compute_special_index).special_index = specialIndexOfTable specialNames c.suffix := by
  unfold ChanNameHolder.compute_special_index specialIndexOfTable
  rw [← specialLookup_eq_findIdx]
  cases hs : specialLookup c.suffix specialNames 0
  · exact h
  · rfl

theorem compute_special_index_xyz_value (c : ChanNameHolder) (h : c.special_index = 10000) :
    (c.compute_special_index_xyz).special_index
      = specialIndexOfTable specialNamesXYZ c.suffix := by
  unfold ChanNameHolder.compute_special_index_xyz specialIndexOfTable
  rw [← specialLookup_eq_findIdx]
  cases hs : specialLookup c.suffix specialNamesXYZ 0
  · exact h
  · rfl

theorem spanLayer_append (l : String) :
    ∀ cs : List ChanNameHolder, (spanLayer l cs).1 ++ (spanLayer l cs).2 = cs := by
  intro cs
  induction cs with
  | nil => rfl
  | cons c rest ih =>
    by_cases h : c.layer = l
    · simp only [spanLayer, if_pos h, List.cons_append, ih]
    · simp only [spanLayer, if_neg h, List.nil_append]

theorem layerGroupsAux_flatten :
    ∀ (fuel : Nat) (cs : List ChanNameHolder), cs.length ≤ fuel →
      (layerGroupsAux fuel cs).flatten = cs := by
  intro fuel
  induction fuel with
  | zero =>
    intro cs h
    cases cs with
    | nil => rfl
    | cons c rest => simp at h
  | succ fuel ih =>
    intro cs h
    cases cs with
    | nil => rfl
    | cons c rest =>
      have hsp := spanLayer_append c.layer rest
      have hlen : (spanLayer c.layer rest).2.length ≤ fuel := by
        have hca := congrArg List.length hsp
        simp only [List.length_append] at hca
        simp only [List.length_cons] at h
        omega
      simp only [layerGroupsAux, List.flatten_cons, ih _ hlen, List.cons_append, hsp]

theorem mem_of_mem_layerGroups {x : ChanNameHolder} {g cs : List ChanNameHolder}
    (hg : g ∈ layerGroups cs) (hx : x ∈ g) : x ∈ cs := by
  have hmem : x ∈ (layerGroupsAux cs.length cs).flatten := List.mem_flatten.mpr ⟨g, hg, hx⟩
  rwa [layerGroupsAux_flatten cs.length cs le_rfl] at hmem

theorem special_index_initial {entries : List ChlistEntry} {x : ChanNameHolder}
    (hx : x ∈ entries.enum.map (fun p => mkChanNameHolder (Int.ofNat p.1) p.2)) :
    x.special_index = 10000 := by
  obtain ⟨p, _, rfl⟩ := List.mem_map.mp hx
  rfl

/-- C5: for each contiguous same-layer channel group, when the group
contains suffix "X" and at least one of "Y"/"Z" (case-insensitive) every
channel's special_index is the position of the first case-insensitive match
of its suffix in the xyz table, otherwise in the usual table; a suffix
matching no entry of the applicable table keeps the sentinel 10000
(specialIndexOfTable yields 10000 when nothing matches). -/
theorem C5_special_index_tables (entries : List ChlistEntry) (g : List ChanNameHolder)
    (hg : g ∈ layerGroups (sortByLayer
      (entries.enum.map (fun p => mkChanNameHolder (Int.ofNat p.1) p.2))))
    (c : ChanNameHolder) (hc : c ∈ processGroup g) :
    c.special_index = specialIndexOfTable
      (if suffixfound "X" g && (suffixfound "Y" g || suffixfound "Z" g)
       then specialNamesXYZ else specialNames) c.suffix := by
  unfold processGroup at hc
  by_cases hcond : (suffixfound "X" g && (suffixfound "Y" g || suffixfound "Z" g)) = true
  · rw [if_pos hcond] at hc ⊢
    have hc' : c ∈ g.map ChanNameHolder.compute_special_index_xyz :=
      ((List.perm_insertionSort cnhLT _).mem_iff).mp hc
    obtain ⟨c0, hc0g, rfl⟩ := List.mem_map.mp hc'
    have h0 : c0.special_index = 10000 :=
      special_index_initial (((List.perm_insertionSort layerLT _).mem_iff).mp
        (mem_of_mem_layerGroups hg hc0g))
    rw [compute_special_index_xyz_value c0 h0, (compute_special_index_xyz_fields c0).1]
  · rw [if_neg hcond] at hc ⊢
    have hc' : c ∈ g.map ChanNameHolder.compute_special_index :=
      ((List.perm_insertionSort cnhLT _).mem_iff).mp hc
    obtain ⟨c0, hc0g, rfl⟩ := List.mem_map.mp hc'
    have h0 : c0.special_index = 10000 :=
      special_index_initial (((List.perm_insertionSort layerLT _).mem_iff).mp
        (mem_of_mem_layerGroups hg hc0g))
    rw [compute_special_index_value c0 h0, (compute_special_index_fields c0).1]

/-- Witness for C5_special_index_tables: channels "N.X","N.Y" form one
layer group that triggers the xyz table; the "X" channel gets position 6 of
that table. -/
theorem C5_special_index_tables_witness :
    [mkChanNameHolder 1 ⟨"N.Y", .float, 1, 1⟩, mkChanNameHolder 0 ⟨"N.X", .float, 1, 1⟩]
        ∈ layerGroups (sortByLayer
          (([⟨"N.X", .float, 1, 1⟩, ⟨"N.Y", .float, 1, 1⟩] : List ChlistEntry).enum.map
            (fun p => mkChanNameHolder (Int.ofNat p.1) p.2)))
    ∧ (mkChanNameHolder 0 ⟨"N.X", .float, 1, 1⟩).compute_special_index_xyz
        ∈ processGroup [mkChanNameHolder 1 ⟨"N.Y", .float, 1, 1⟩,
            mkChanNameHolder 0 ⟨"N.X", .float, 1, 1⟩]
    ∧ ((mkChanNameHolder 0 ⟨"N.X", .float, 1, 1⟩).compute_special_index_xyz).special_index
        = specialIndexOfTable
            (if suffixfound "X" [mkChanNameHolder 1 ⟨"N.Y", .float, 1, 1⟩,
                  mkChanNameHolder 0 ⟨"N.X", .float, 1, 1⟩]
                && (suffixfound "Y" [mkChanNameHolder 1 ⟨"N.Y", .float, 1, 1⟩,
                      mkChanNameHolder 0 ⟨"N.X", .float, 1, 1⟩]
                  || suffixfound "Z" [mkChanNameHolder 1 ⟨"N.Y", .float, 1, 1⟩,
                      mkChanNameHolder 0 ⟨"N.X", .float, 1, 1⟩])
             then specialNamesXYZ else specialNames)
            ((mkChanNameHolder 0 ⟨"N.X", .float, 1, 1⟩).compute_special_index_xyz).suffix := by
  refine ⟨by decide, by decide, ?_⟩
  exact C5_special_index_tables [⟨"N.X", .float, 1, 1⟩, ⟨"N.Y", .float, 1, 1⟩] _
    (by decide) _ (by decide)

theorem mem_enumFrom_of_mem {α : Type _} {x : α} :
    ∀ {l : List α} (n : Nat), x ∈ l → ∃ i, (i, x) ∈ l.enumFrom n := by
  intro l
  induction l with
  | nil => intro n h; cases h
  | cons a t ih =>
    intro n h
    rcases List.mem_cons.mp h with h | h
    · exact ⟨n, by rw [h]; exact List.mem_cons_self _ _⟩
    · obtain ⟨i, hi⟩ := ih (n + 1) h
      exact ⟨i, List.mem_cons_of_mem _ hi⟩

theorem exists_cnh_of_mem_entries {entries : List ChlistEntry} {e : ChlistEntry}
    (he : e ∈ entries) :
    ∃ c ∈ entries.enum.map (fun p => mkChanNameHolder (Int.ofNat p.1) p.2),
      c.fullname = e.name ∧ c.xSampling = e.xSampling ∧ c.ySampling = e.ySampling := by
  obtain ⟨i, hi⟩ := mem_enumFrom_of_mem 0 he
  exact ⟨mkChanNameHolder (Int.ofNat i) e, List.mem_map.mpr ⟨(i, e), hi, rfl⟩, rfl, rfl, rfl⟩

theorem exists_processed_of_mem {cs : List ChanNameHolder} {x : ChanNameHolder}
    (hx : x ∈ cs) :
    ∃ c ∈ (layerGroups cs).flatMap processGroup,
      c.fullname = x.fullname ∧ c.xSampling = x.xSampling ∧ c.ySampling = x.ySampling := by
  have hx' : x ∈ (layerGroupsAux cs.length cs).flatten := by
    rw [layerGroupsAux_flatten cs.length cs le_rfl]
    exact hx
  obtain ⟨g, hg, hxg⟩ := List.mem_flatten.mp hx'
  by_cases hcond : (suffixfound "X" g && (suffixfound "Y" g || suffixfound "Z" g)) = true
  · refine ⟨x.compute_special_index_xyz, List.mem_flatMap.mpr ⟨g, hg, ?_⟩, ?_, ?_, ?_⟩
    · unfold processGroup
      rw [if_pos hcond]
      exact ((List.perm_insertionSort cnhLT _).mem_iff).mpr
        (List.mem_map_of_mem _ hxg)
    · exact (compute_special_index_xyz_fields x).2.1
    · exact (compute_special_index_xyz_fields x).2.2.1
    · exact (compute_special_index_xyz_fields x).2.2.2
  · refine ⟨x.compute_special_index, List.mem_flatMap.mpr ⟨g, hg, ?_⟩, ?_, ?_, ?_⟩
    · unfold processGroup
      rw [if_neg hcond]
      exact ((List.perm_insertionSort cnhLT _).mem_iff).mpr
        (List.mem_map_of_mem _ hxg)
    · exact (compute_special_index_fields x).2.1
    · exact (compute_special_index_fields x).2.2.1
    · exact (compute_special_index_fields x).2.2.2

theorem finalScan_step (c : ChanNameHolder) (rest : List ChanNameHolder)
    (idx : Int) (st : ScanState) :
    finalScan (c :: rest) idx st = finalScan rest (idx + 1)
      { alpha_channel :=
          if st.alpha_channel < 0 && (iequals c.suffix "A" || iequals c.suffix "Alpha")
          then idx else st.alpha_channel
        z_channel :=
          if st.z_channel < 0 && (iequals c.suffix "Z" || iequals c.suffix "Depth")
          then idx else st.z_channel
        ok := if c.xSampling ≠ 1 || c.ySampling ≠ 1 then false else st.ok
        errors := if c.xSampling ≠ 1 || c.ySampling ≠ 1
          then st.errors ++ [⟨c.fullname, c.xSampling, c.ySampling⟩] else st.errors } := rfl

theorem finalScan_errors_mono :
    ∀ (l : List ChanNameHolder) (idx : Int) (st : ScanState) (err : SubsampleError),
      err ∈ st.errors → err ∈ (finalScan l idx st).errors := by
  intro l
  induction l with
  | nil => intro idx st err h; exact h
  | cons c rest ih =>
    intro idx st err h
    rw [finalScan_step]
    apply ih
    by_cases hbad : (decide (c.xSampling ≠ 1) || decide (c.ySampling ≠ 1)) = true
    · simp only [hbad, if_true]
      exact List.mem_append_left _ h
    · simp only [Bool.not_eq_true] at hbad
      simp only [hbad, Bool.false_eq_true, if_false]
      exact h

theorem finalScan_ok_mono :
    ∀ (l : List ChanNameHolder) (idx : Int) (st : ScanState),
      st.ok = false → (finalScan l idx st).ok = false := by
  intro l
  induction l with
  | nil => intro idx st h; exact h
  | cons c rest ih =>
    intro idx st h
    rw [finalScan_step]
    apply ih
    by_cases hbad : (decide (c.xSampling ≠ 1) || decide (c.ySampling ≠ 1)) = true
    · simp only [hbad, if_true]
    · simp only [Bool.not_eq_true] at hbad
      simp only [hbad, Bool.false_eq_true, if_false]
      exact h

theorem finalScan_ok_false :
    ∀ (l : List ChanNameHolder) (idx : Int) (st : ScanState),
      (∃ c ∈ l, c.xSampling ≠ 1 ∨ c.ySampling ≠ 1) →
      (finalScan l idx st).ok = false := by
  intro l
  induction l with
  | nil => intro idx st h; obtain ⟨c, hc, _⟩ := h; cases hc
  | cons a rest ih =>
    intro idx st h
    obtain ⟨c, hc, hbadc⟩ := h
    rcases List.mem_cons.mp hc with rfl | hcr
    · rw [finalScan_step]
      apply finalScan_ok_mono
      have hbad : (decide (c.xSampling ≠ 1) || decide (c.ySampling ≠ 1)) = true := by
        rcases hbadc with h | h <;> simp [h]
      simp only [hbad, if_true]
    · rw [finalScan_step]
      exact ih _ _ ⟨c, hcr, hbadc⟩

theorem finalScan_reports :
    ∀ (l : List ChanNameHolder) (idx : Int) (st : ScanState),
      ∀ c ∈ l, (c.xSampling ≠ 1 ∨ c.ySampling ≠ 1) →
      (⟨c.fullname, c.xSampling, c.ySampling⟩ : SubsampleError)
        ∈ (finalScan l idx st).errors := by
  intro l
  induction l with
  | nil => intro idx st c hc; cases hc
  | cons a rest ih =>
    intro idx st c hc hbadc
    rcases List.mem_cons.mp hc with rfl | hcr
    · rw [finalScan_step]
      apply finalScan_errors_mono
      have hbad : (decide (c.xSampling ≠ 1) || decide (c.ySampling ≠ 1)) = true := by
        rcases hbadc with h | h <;> simp [h]
      simp only [hbad, if_true]
      exact List.mem_append_right _ (List.mem_singleton.mpr rfl)
    · rw [finalScan_step]
      exact ih _ _ c hcr hbadc

theorem seek_unchanged_of_parse_false (st : ReaderState) (subimage miplevel : Int)
    (hinit : (st.parts.getD subimage.toNat default).initialized = false)
    (hparse : parse_header (st.parts.getD subimage.toNat default) = false) :
    seek_subimage st subimage miplevel = (false, st) := by
  by_cases hrange : (decide (subimage < 0) || decide (subimage ≥ st.m_nsubimages)) = true
  · simp only [seek_subimage, hrange, if_true]
  · have hc1 : (decide (subimage < 0) || decide (subimage ≥ st.m_nsubimages)) = false := by
      revert hrange
      cases h : (decide (subimage < 0) || decide (subimage ≥ st.m_nsubimages)) <;> simp
    have hc2 : (!(st.parts.getD subimage.toNat default).initialized
        && !parse_header (st.parts.getD subimage.toNat default)) = true := by
      simp only [hinit, hparse, Bool.not_false, Bool.and_self]
    simp only [seek_subimage, hc1, hc2, Bool.false_eq_true, if_false, if_true]

/-- C7: if any channel of a part has x_sampling or y_sampling different
from 1, channel cataloging fails, an unsupported-subsampling error naming
each offending channel (with its sampling factors) is recorded for every
offender before the failure is returned, and the part is never marked
initialized: a subsequent seek to that part fails with the reader state
unchanged. -/
theorem C7_subsampling_rejection (entries : List ChlistEntry) (e : ChlistEntry)
    (he : e ∈ entries) (hbad : e.xSampling ≠ 1 ∨ e.ySampling ≠ 1) :
    (query_channels entries).ok = false
    ∧ (∀ e2 ∈ entries, (e2.xSampling ≠ 1 ∨ e2.ySampling ≠ 1) →
        ∃ err ∈ (query_channels entries).errors,
          err.name = e2.name ∧ err.xs = e2.xSampling ∧ err.ys = e2.ySampling)
    ∧ (∀ (st : ReaderState) (subimage miplevel : Int),
        (st.parts.getD subimage.toNat default).initialized = false →
        (st.parts.getD subimage.toNat default).entries = entries →
        seek_subimage st subimage miplevel = (false, st)) := by
  have hlen : ¬((entries.enum.map (fun p => mkChanNameHolder (Int.ofNat p.1) p.2)).length = 0) := by
    simp only [List.length_map, List.enum_length]
    intro h0
    rw [List.length_eq_zero.mp h0] at he
    cases he
  have hok : (query_channels entries).ok = false := by
    obtain ⟨x, hxmem, hxn, hxx, hxy⟩ := exists_cnh_of_mem_entries he
    have hxs : x ∈ sortByLayer (entries.enum.map (fun p => mkChanNameHolder (Int.ofNat p.1) p.2)) :=
      ((List.perm_insertionSort layerLT _).mem_iff).mpr hxmem
    obtain ⟨c, hcmem, hcn, hcx, hcy⟩ := exists_processed_of_mem hxs
    unfold query_channels
    rw [if_neg hlen]
    exact finalScan_ok_false _ _ _ ⟨c, hcmem, by rw [hcx, hcy, hxx, hxy]; exact hbad⟩
  refine ⟨hok, ?_, ?_⟩
  · intro e2 he2 hbad2
    obtain ⟨x, hxmem, hxn, hxx, hxy⟩ := exists_cnh_of_mem_entries he2
    have hxs : x ∈ sortByLayer (entries.enum.map (fun p => mkChanNameHolder (Int.ofNat p.1) p.2)) :=
      ((List.perm_insertionSort layerLT _).mem_iff).mpr hxmem
    obtain ⟨c, hcmem, hcn, hcx, hcy⟩ := exists_processed_of_mem hxs
    refine ⟨⟨c.fullname, c.xSampling, c.ySampling⟩, ?_, ?_, ?_, ?_⟩
    · show _ ∈ (query_channels entries).errors
      unfold query_channels
      rw [if_neg hlen]
      exact finalScan_reports _ _ _ c hcmem (by rw [hcx, hcy, hxx, hxy]; exact hbad2)
    · rw [hcn, hxn]
    · rw [hcx, hxx]
    · rw [hcy, hxy]
  · intro st subimage miplevel hinit hent
    apply seek_unchanged_of_parse_false st subimage miplevel hinit
    simp only [parse_header, hinit, hent, hok, Bool.false_or, Bool.and_false, Bool.false_and]

/-- Witness for C7_subsampling_rejection: one channel "R" with x_sampling 2
in a one-part reader; cataloging fails, the error names "R" with sampling
(2,1), and a seek to the part leaves the state unchanged. -/
theorem C7_subsampling_rejection_witness :
    (⟨"R", .half, 2, 1⟩ : ChlistEntry) ∈ ([⟨"R", .half, 2, 1⟩] : List ChlistEntry)
    ∧ ((2 : Int) ≠ 1 ∨ (1 : Int) ≠ 1)
    ∧ (query_channels [⟨"R", .half, 2, 1⟩]).ok = false
    ∧ (∃ err ∈ (query_channels [⟨"R", .half, 2, 1⟩]).errors,
        err.name = "R" ∧ err.xs = 2 ∧ err.ys = 1)
    ∧ seek_subimage ⟨[⟨false, true, true, [⟨"R", .half, 2, 1⟩], 1⟩], -1, -1⟩ 0 0
        = (false, ⟨[⟨false, true, true, [⟨"R", .half, 2, 1⟩], 1⟩], -1, -1⟩) := by
  have h := C7_subsampling_rejection [⟨"R", .half, 2, 1⟩] ⟨"R", .half, 2, 1⟩
    (by decide) (Or.inl (by decide))
  refine ⟨by decide, Or.inl (by decide), h.1, ?_, ?_⟩
  · exact h.2.1 ⟨"R", .half, 2, 1⟩ (by decide) (Or.inl (by decide))
  · exact h.2.2 _ 0 0 (by decide) (by decide)

theorem check_fill_missing_isSome (missing : List ℚ) (formats : Nat → PixelType)
    (xb xe yb ye cb ce : Int) :
    (check_fill_missing missing formats xb xe yb ye cb ce).isSome = !missing.isEmpty := by
  cases missing with
  | nil => simp [check_fill_missing]
  | cons a t => simp [check_fill_missing]

theorem processTile_retval_and_fill (oracle : Int → Int → DecodeStage → Bool)
    (fillOk first retval : Bool) (cx cy : Int) :
    ((processTile oracle fillOk first retval cx cy).2.1
      = (retval && decide ((processTile oracle fillOk first retval cx cy).2.2 ≠ TileOutcome.failed)))
    ∧ ((processTile oracle fillOk first retval cx cy).2.2 = TileOutcome.failed → fillOk = false) := by
  cases hb : oracle cx cy .blockInfo <;>
    cases hi : oracle cx cy .initPipeline <;>
    cases hu : oracle cx cy .update <;>
    cases hc : oracle cx cy .chooseRoutines <;>
    cases hr : oracle cx cy .run <;>
    cases first <;> cases fillOk <;>
    simp [processTile, hb, hi, hu, hc, hr]

theorem tiles_loop_spec (oracle : Int → Int → DecodeStage → Bool)
    (missing : List ℚ) (formats : Nat → PixelType)
    (xb yb cb ce tw th fx fy : Int) :
    ∀ (l : List (Nat × Nat)) (first retval : Bool) (evs : List (Nat × Nat × TileOutcome)),
      ∃ nevs,
        read_native_tiles_loop oracle missing formats xb yb cb ce tw th fx fy l first retval evs
          = (retval && nevs.all (fun ev => decide (ev.2.2 ≠ TileOutcome.failed)), evs ++ nevs)
        ∧ nevs.map (fun ev => (ev.1, ev.2.1)) = l
        ∧ (∀ ev ∈ nevs, ev.2.2 = TileOutcome.failed → missing = []) := by
  intro l
  induction l with
  | nil =>
    intro first retval evs
    refine ⟨[], ?_, rfl, by simp⟩
    simp [read_native_tiles_loop]
  | cons p rest ih =>
    intro first retval evs
    obtain ⟨ty, tx⟩ := p
    set fo := (check_fill_missing missing formats
        (xb + Int.ofNat tx * tw) (xb + (Int.ofNat tx + 1) * tw)
        (yb + Int.ofNat ty * th) (yb + (Int.ofNat ty + 1) * th) cb ce).isSome with hfo
    set r := processTile oracle fo first retval (fx + Int.ofNat tx) (fy + Int.ofNat ty) with hr
    obtain ⟨nevs, h1, h2, h3⟩ := ih r.1 r.2.1 (evs ++ [(ty, tx, r.2.2)])
    refine ⟨(ty, tx, r.2.2) :: nevs, ?_, ?_, ?_⟩
    · have hstep : read_native_tiles_loop oracle missing formats xb yb cb ce tw th fx fy
          ((ty, tx) :: rest) first retval evs
          = read_native_tiles_loop oracle missing formats xb yb cb ce tw th fx fy
            rest r.1 r.2.1 (evs ++ [(ty, tx, r.2.2)]) := rfl
      rw [hstep, h1]
      have hret := (processTile_retval_and_fill oracle fo first retval
        (fx + Int.ofNat tx) (fy + Int.ofNat ty)).1
      rw [← hr] at hret
      rw [hret, Bool.and_assoc, List.append_assoc, List.singleton_append]
      rfl
    · simp only [List.map_cons, h2]
    · intro ev hev hfail
      rcases List.mem_cons.mp hev with rfl | hev2
      · have hfill := (processTile_retval_and_fill oracle fo first retval
          (fx + Int.ofNat tx) (fy + Int.ofNat ty)).2
        rw [← hr] at hfill
        have hfo2 : fo = false := hfill hfail
        rw [hfo, check_fill_missing_isSome] at hfo2
        cases missing with
        | nil => rfl
        | cons a t => simp at hfo2
      · exact h3 ev hev2 hfail

/-- C2: in the tile-loop of read_native_tiles, every per-tile failure is
isolated: every tile of the grid is processed exactly once in row-major
order, a failed tile is filled via check_fill_missing whenever a missing
color is configured (a "failed" outcome occurs only with no missing color),
and the call returns true if and only if every tile either decoded
successfully or was filled. -/
theorem C2_tile_failure_isolation (oracle : Int → Int → DecodeStage → Bool)
    (missing : List ℚ) (formats : Nat → PixelType)
    (xb yb cb ce tw th fx fy : Int) (nxtiles nytiles : Nat) :
    ((read_native_tiles oracle missing formats xb yb cb ce tw th fx fy nxtiles nytiles).2.map
        (fun ev => (ev.1, ev.2.1)) = tileGrid nytiles nxtiles)
    ∧ ((read_native_tiles oracle missing formats xb yb cb ce tw th fx fy nxtiles nytiles).1 = true
        ↔ ∀ ev ∈ (read_native_tiles oracle missing formats xb yb cb ce tw th fx fy nxtiles nytiles).2,
            ev.2.2 ≠ TileOutcome.failed)
    ∧ (∀ ev ∈ (read_native_tiles oracle missing formats xb yb cb ce tw th fx fy nxtiles nytiles).2,
        ev.2.2 = TileOutcome.failed → missing = []) := by
  obtain ⟨nevs, h1, h2, h3⟩ := tiles_loop_spec oracle missing formats xb yb cb ce tw th fx fy
    (tileGrid nytiles nxtiles) true true []
  have hdef : read_native_tiles oracle missing formats xb yb cb ce tw th fx fy nxtiles nytiles
      = (nevs.all (fun ev => decide (ev.2.2 ≠ TileOutcome.failed)), nevs) := by
    show read_native_tiles_loop oracle missing formats xb yb cb ce tw th fx fy
        (tileGrid nytiles nxtiles) true true [] = _
    rw [h1]
    simp
  rw [hdef]
  refine ⟨h2, ?_, h3⟩
  simp only [List.all_eq_true, decide_eq_true_eq]

theorem intRangeMap_append {β : Type _} (f : Int → β) :
    ∀ (n : Nat) (a : Int) (m : Nat),
      intRangeMap f a n ++ intRangeMap f (a + (n : Int)) m = intRangeMap f a (n + m) := by
  intro n
  induction n with
  | zero => intro a m; simp [intRangeMap]
  | succ n ih =>
    intro a m
    have hc : a + ((n + 1 : Nat) : Int) = (a + 1) + (n : Int) := by push_cast; ring
    have hs : n + 1 + m = (n + m) + 1 := by omega
    rw [hs]
    show f a :: (intRangeMap f (a + 1) n ++ intRangeMap f (a + ((n + 1 : Nat) : Int)) m)
        = f a :: intRangeMap f (a + 1) (n + m)
    rw [hc, ih]

theorem intRangeMap_take {β : Type _} (f : Int → β) :
    ∀ (n : Nat) (a : Int) (k : Nat),
      (intRangeMap f a n).take k = intRangeMap f a (min k n) := by
  intro n
  induction n with
  | zero => intro a k; simp [intRangeMap]
  | succ n ih =>
    intro a k
    cases k with
    | zero => simp [intRangeMap]
    | succ k =>
      have hm : min (k + 1) (n + 1) = min k n + 1 := by omega
      rw [hm]
      show f a :: (intRangeMap f (a + 1) n).take k = f a :: intRangeMap f (a + 1) (min k n)
      rw [ih]

theorem intRangeMap_drop {β : Type _} (f : Int → β) :
    ∀ (n : Nat) (a : Int) (k : Nat),
      (intRangeMap f a n).drop k = intRangeMap f (a + (k : Int)) (n - k) := by
  intro n
  induction n with
  | zero => intro a k; simp [intRangeMap]
  | succ n ih =>
    intro a k
    cases k with
    | zero => simp [intRangeMap]
    | succ k =>
      show (intRangeMap f (a + 1) n).drop k = _
      rw [ih]
      have h1 : (a + 1) + (k : Int) = a + ((k + 1 : Nat) : Int) := by push_cast; ring
      have h2 : n - k = (n + 1) - (k + 1) := by omega
      rw [h1, h2]

theorem intRangeMap_congr {β : Type _} (f g : Int → β) :
    ∀ (n : Nat) (a : Int),
      (∀ i : Int, a ≤ i → i < a + (n : Int) → f i = g i) →
      intRangeMap f a n = intRangeMap g a n := by
  intro n
  induction n with
  | zero => intro a _; rfl
  | succ n ih =>
    intro a hfg
    show f a :: intRangeMap f (a + 1) n = g a :: intRangeMap g (a + 1) n
    rw [hfg a le_rfl (by push_cast; omega)]
    rw [ih (a + 1) (fun i h1 h2 => hfg i (by omega) (by push_cast at h2 ⊢; omega))]

theorem scan_loop_done {β : Type _} (specy h spc : Int) (oracle : Int → DecodeStage → Bool)
    (D junk : Int → β) (yend : Int) :
    ∀ (fuel : Nat) (y : Int) (first : Bool) (acc : List β), ¬(y < yend) →
      (read_native_scanlines_loop specy h spc oracle D junk yend fuel y first acc).2 = acc := by
  intro fuel y first acc hy
  cases fuel with
  | zero => rfl
  | succ fuel =>
    simp only [read_native_scanlines_loop]
    rw [if_neg hy]

theorem scan_loop_true_of_done {β : Type _} (specy h spc : Int)
    (oracle : Int → DecodeStage → Bool) (D junk : Int → β) (yend : Int) :
    ∀ (fuel : Nat) (y : Int) (first : Bool) (acc : List β), ¬(y < yend) → 1 ≤ fuel →
      read_native_scanlines_loop specy h spc oracle D junk yend fuel y first acc
        = (true, acc) := by
  intro fuel y first acc hy hfuel
  cases fuel with
  | zero => omega
  | succ fuel =>
    simp only [read_native_scanlines_loop]
    rw [if_neg hy]

theorem chunksAllOK_true_of_done (specy spc : Int) (oracle : Int → DecodeStage → Bool)
    (yend : Int) :
    ∀ (fuel : Nat) (y : Int) (first : Bool), ¬(y < yend) → 1 ≤ fuel →
      chunksAllOK specy spc oracle yend fuel y first = true := by
  intro fuel y first hy hfuel
  cases fuel with
  | zero => omega
  | succ fuel =>
    simp only [chunksAllOK]
    rw [if_neg hy]

theorem scan_loop_step_unaligned {β : Type _} (specy h spc : Int)
    (oracle : Int → DecodeStage → Bool) (D junk : Int → β) (yend : Int)
    (fuel : Nat) (y : Int) (first : Bool) (acc : List β)
    (hylt : y < yend) (hinv : Int.tmod (y - specy) spc ≠ 0)
    (hchunk : scanChunkOK oracle first (y - Int.tmod (y - specy) spc) = true) :
    read_native_scanlines_loop specy h spc oracle D junk yend (fuel + 1) y first acc
      = read_native_scanlines_loop specy h spc oracle D junk yend fuel
          (y + min (spc - Int.tmod (y - specy) spc) (yend - y)) false
          (acc ++ intRangeMap (chunkRow specy h D junk) y
            (min (spc - Int.tmod (y - specy) spc) (yend - y)).toNat) := by
  simp only [read_native_scanlines_loop]
  rw [if_pos hylt, if_pos hinv, if_pos hchunk]

theorem scan_loop_step_unaligned_fail {β : Type _} (specy h spc : Int)
    (oracle : Int → DecodeStage → Bool) (D junk : Int → β) (yend : Int)
    (fuel : Nat) (y : Int) (first : Bool) (acc : List β)
    (hylt : y < yend) (hinv : Int.tmod (y - specy) spc ≠ 0)
    (hchunk : scanChunkOK oracle first (y - Int.tmod (y - specy) spc) = false) :
    read_native_scanlines_loop specy h spc oracle D junk yend (fuel + 1) y first acc
      = (false, acc) := by
  simp only [read_native_scanlines_loop]
  rw [if_pos hylt, if_pos hinv, if_neg (by simp [hchunk])]

theorem scan_loop_step_mid {β : Type _} (specy h spc : Int)
    (oracle : Int → DecodeStage → Bool) (D junk : Int → β) (yend : Int)
    (fuel : Nat) (y : Int) (first : Bool) (acc : List β)
    (hylt : y < yend) (hinv : Int.tmod (y - specy) spc = 0)
    (hgt : y + spc > yend) (hlt2 : y + spc < specy + h)
    (hchunk : scanChunkOK oracle first y = true) :
    read_native_scanlines_loop specy h spc oracle D junk yend (fuel + 1) y first acc
      = read_native_scanlines_loop specy h spc oracle D junk yend fuel yend false
          (acc ++ intRangeMap (chunkRow specy h D junk) y (yend - y).toNat) := by
  simp only [read_native_scanlines_loop]
  rw [if_pos hylt, if_neg (by simp [hinv]), if_pos (by simp [hgt, hlt2]), if_pos hchunk]

theorem scan_loop_step_mid_fail {β : Type _} (specy h spc : Int)
    (oracle : Int → DecodeStage → Bool) (D junk : Int → β) (yend : Int)
    (fuel : Nat) (y : Int) (first : Bool) (acc : List β)
    (hylt : y < yend) (hinv : Int.tmod (y - specy) spc = 0)
    (hgt : y + spc > yend) (hlt2 : y + spc < specy + h)
    (hchunk : scanChunkOK oracle first y = false) :
    read_native_scanlines_loop specy h spc oracle D junk yend (fuel + 1) y first acc
      = (false, acc) := by
  simp only [read_native_scanlines_loop]
  rw [if_pos hylt, if_neg (by simp [hinv]), if_pos (by simp [hgt, hlt2]),
    if_neg (by simp [hchunk])]

theorem scan_loop_step_direct {β : Type _} (specy h spc : Int)
    (oracle : Int → DecodeStage → Bool) (D junk : Int → β) (yend : Int)
    (fuel : Nat) (y : Int) (first : Bool) (acc : List β)
    (hylt : y < yend) (hinv : Int.tmod (y - specy) spc = 0)
    (hmid : ¬(y + spc > yend ∧ y + spc < specy + h))
    (hchunk : scanChunkOK oracle first y = true) :
    read_native_scanlines_loop specy h spc oracle D junk yend (fuel + 1) y first acc
      = read_native_scanlines_loop specy h spc oracle D junk yend fuel (y + spc) false
          (acc ++ intRangeMap D y (min spc (specy + h - y)).toNat) := by
  have hmidb : (decide (y + spc > yend) && decide (y + spc < specy + h)) = false := by
    by_cases h1 : y + spc > yend
    · have h2 : ¬(y + spc < specy + h) := fun h2 => hmid ⟨h1, h2⟩
      simp [h2]
    · simp [h1]
  simp only [read_native_scanlines_loop]
  rw [if_pos hylt, if_neg (by simp [hinv]), if_neg (by simp [hmidb]), if_pos hchunk]

theorem scan_loop_step_direct_fail {β : Type _} (specy h spc : Int)
    (oracle : Int → DecodeStage → Bool) (D junk : Int → β) (yend : Int)
    (fuel : Nat) (y : Int) (first : Bool) (acc : List β)
    (hylt : y < yend) (hinv : Int.tmod (y - specy) spc = 0)
    (hmid : ¬(y + spc > yend ∧ y + spc < specy + h))
    (hchunk : scanChunkOK oracle first y = false) :
    read_native_scanlines_loop specy h spc oracle D junk yend (fuel + 1) y first acc
      = (false, acc) := by
  have hmidb : (decide (y + spc > yend) && decide (y + spc < specy + h)) = false := by
    by_cases h1 : y + spc > yend
    · have h2 : ¬(y + spc < specy + h) := fun h2 => hmid ⟨h1, h2⟩
      simp [h2]
    · simp [h1]
  simp only [read_native_scanlines_loop]
  rw [if_pos hylt, if_neg (by simp [hinv]), if_neg (by simp [hmidb]),
    if_neg (by simp [hchunk])]

theorem chunksAllOK_step (specy spc : Int) (oracle : Int → DecodeStage → Bool) (yend : Int)
    (fuel : Nat) (y : Int) (first : Bool) (hylt : y < yend) :
    chunksAllOK specy spc oracle yend (fuel + 1) y first
      = (scanChunkOK oracle first (y - Int.tmod (y - specy) spc)
          && chunksAllOK specy spc oracle yend fuel (y - Int.tmod (y - specy) spc + spc) false) := by
  simp only [chunksAllOK]
  rw [if_pos hylt]

theorem scan_loop_success {β : Type _} (specy h spc : Int)
    (oracle : Int → DecodeStage → Bool) (D junk : Int → β) (yend : Int)
    (hok : ∀ c s, oracle c s = true) (hspc : 0 < spc) (hyh : yend ≤ specy + h) :
    ∀ (fuel : Nat) (y : Int) (first : Bool) (acc : List β),
      specy ≤ y → (yend - y).toNat < fuel →
      ∃ e : Int, yend ≤ e ∧
        read_native_scanlines_loop specy h spc oracle D junk yend fuel y first acc
          = (true, acc ++ intRangeMap D y (e - y).toNat) := by
  intro fuel
  induction fuel with
  | zero => intro y first acc hy hfuel; omega
  | succ fuel ih =>
    intro y first acc hy hfuel
    by_cases hylt : y < yend
    · have hchunkAny : ∀ (first' : Bool) (c : Int), scanChunkOK oracle first' c = true := by
        intro first' c
        cases first' <;> simp [scanChunkOK, hok]
      have hinv0 : 0 ≤ Int.tmod (y - specy) spc := Int.tmod_nonneg spc (by omega)
      have hinvlt : Int.tmod (y - specy) spc < spc := Int.tmod_lt_of_pos (y - specy) hspc
      by_cases hinvz : Int.tmod (y - specy) spc = 0
      · by_cases hmid : y + spc > yend ∧ y + spc < specy + h
        · -- scratch decode of an overhanging chunk, copy rows [y, yend)
          rw [scan_loop_step_mid specy h spc oracle D junk yend fuel y first acc
            hylt hinvz hmid.1 hmid.2 (hchunkAny first y)]
          obtain ⟨e, he1, he2⟩ := ih yend false
            (acc ++ intRangeMap (chunkRow specy h D junk) y (yend - y).toNat)
            (by omega) (by omega)
          refine ⟨e, he1, ?_⟩
          rw [he2]
          have hcg : intRangeMap (chunkRow specy h D junk) y (yend - y).toNat
              = intRangeMap D y (yend - y).toNat := by
            apply intRangeMap_congr
            intro i h1 h2
            unfold chunkRow
            rw [if_pos ⟨by omega, by omega⟩]
          rw [hcg, List.append_assoc]
          have hcast : ((yend - y).toNat : Int) = yend - y := Int.toNat_of_nonneg (by omega)
          have happ := intRangeMap_append D (yend - y).toNat y (e - yend).toNat
          rw [hcast] at happ
          have hy2 : y + (yend - y) = yend := by ring
          rw [hy2] at happ
          have harith : (yend - y).toNat + (e - yend).toNat = (e - y).toNat := by omega
          rw [harith] at happ
          rw [happ]
        · -- direct decode into the caller buffer
          rw [scan_loop_step_direct specy h spc oracle D junk yend fuel y first acc
            hylt hinvz hmid (hchunkAny first y)]
          by_cases hfit : y + spc ≤ yend
          · have hmin : min spc (specy + h - y) = spc := by omega
            rw [hmin]
            obtain ⟨e, he1, he2⟩ := ih (y + spc) false
              (acc ++ intRangeMap D y spc.toNat) (by omega) (by omega)
            refine ⟨e, he1, ?_⟩
            rw [he2, List.append_assoc]
            have hcast : (spc.toNat : Int) = spc := Int.toNat_of_nonneg (by omega)
            have happ := intRangeMap_append D spc.toNat y (e - (y + spc)).toNat
            rw [hcast] at happ
            have harith : spc.toNat + (e - (y + spc)).toNat = (e - y).toNat := by
              have : yend ≤ e := he1
              omega
            rw [harith] at happ
            rw [happ]
          · -- last chunk of the image: the chunk is shorter than spc or
            -- exactly reaches the bottom; the loop exits after this chunk
            have hbot : specy + h ≤ y + spc := by
              rcases not_and_or.mp hmid with h1 | h1 <;> omega
            have hmin : min spc (specy + h - y) = specy + h - y := by omega
            rw [hmin]
            refine ⟨specy + h, by omega, ?_⟩
            rw [scan_loop_true_of_done specy h spc oracle D junk yend fuel (y + spc) false _
              (by omega) (by omega)]
      · -- unaligned start: decode the whole containing chunk via scratch
        rw [scan_loop_step_unaligned specy h spc oracle D junk yend fuel y first acc
          hylt hinvz (hchunkAny first _)]
        set nl := min (spc - Int.tmod (y - specy) spc) (yend - y) with hnl
        have hnl1 : 1 ≤ nl := by omega
        have hnlyend : y + nl ≤ yend := by omega
        obtain ⟨e, he1, he2⟩ := ih (y + nl) false
          (acc ++ intRangeMap (chunkRow specy h D junk) y nl.toNat)
          (by omega) (by omega)
        refine ⟨e, he1, ?_⟩
        rw [he2]
        have hcg : intRangeMap (chunkRow specy h D junk) y nl.toNat
            = intRangeMap D y nl.toNat := by
          apply intRangeMap_congr
          intro i h1 h2
          unfold chunkRow
          have hcast : (nl.toNat : Int) = nl := Int.toNat_of_nonneg (by omega)
          rw [hcast] at h2
          rw [if_pos ⟨by omega, by omega⟩]
        rw [hcg, List.append_assoc]
        have hcast : (nl.toNat : Int) = nl := Int.toNat_of_nonneg (by omega)
        have happ := intRangeMap_append D nl.toNat y (e - (y + nl)).toNat
        rw [hcast] at happ
        have harith : nl.toNat + (e - (y + nl)).toNat = (e - y).toNat := by
          have : yend ≤ e := he1
          omega
        rw [harith] at happ
        rw [happ]
    · refine ⟨yend, le_rfl, ?_⟩
      have hz : (yend - y).toNat = 0 := by omega
      rw [scan_loop_true_of_done specy h spc oracle D junk yend (fuel + 1) y first acc hylt
        (by omega)]
      rw [hz]
      show (true, acc) = (true, acc ++ [])
      rw [List.append_nil]

theorem scan_loop_ok_eq {β : Type _} (specy h spc : Int)
    (oracle : Int → DecodeStage → Bool) (D junk : Int → β) (yend : Int) (hspc : 0 < spc) :
    ∀ (fuel : Nat) (y : Int) (first : Bool) (acc : List β),
      specy ≤ y → (yend - y).toNat < fuel →
      (read_native_scanlines_loop specy h spc oracle D junk yend fuel y first acc).1
        = chunksAllOK specy spc oracle yend fuel y first := by
  intro fuel
  induction fuel with
  | zero => intro y first acc hy hfuel; omega
  | succ fuel ih =>
    intro y first acc hy hfuel
    by_cases hylt : y < yend
    · have hinv0 : 0 ≤ Int.tmod (y - specy) spc := Int.tmod_nonneg spc (by omega)
      have hinvlt : Int.tmod (y - specy) spc < spc := Int.tmod_lt_of_pos (y - specy) hspc
      have hfuel1 : 1 ≤ fuel := by omega
      rw [chunksAllOK_step specy spc oracle yend fuel y first hylt]
      by_cases hinvz : Int.tmod (y - specy) spc = 0
      · rw [hinvz, sub_zero]
        by_cases hmid : y + spc > yend ∧ y + spc < specy + h
        · cases hchunk : scanChunkOK oracle first y
          · rw [scan_loop_step_mid_fail specy h spc oracle D junk yend fuel y first acc
              hylt hinvz hmid.1 hmid.2 hchunk]
            simp
          · rw [scan_loop_step_mid specy h spc oracle D junk yend fuel y first acc
              hylt hinvz hmid.1 hmid.2 hchunk]
            rw [scan_loop_true_of_done specy h spc oracle D junk yend fuel yend false _
              (by omega) hfuel1]
            rw [chunksAllOK_true_of_done specy spc oracle yend fuel (y + spc) false
              (by omega) hfuel1]
            simp
        · cases hchunk : scanChunkOK oracle first y
          · rw [scan_loop_step_direct_fail specy h spc oracle D junk yend fuel y first acc
              hylt hinvz hmid hchunk]
            simp
          · rw [scan_loop_step_direct specy h spc oracle D junk yend fuel y first acc
              hylt hinvz hmid hchunk]
            rw [ih (y + spc) false _ (by omega) (by omega)]
            simp
      · cases hchunk : scanChunkOK oracle first (y - Int.tmod (y - specy) spc)
        · rw [scan_loop_step_unaligned_fail specy h spc oracle D junk yend fuel y first acc
            hylt hinvz hchunk]
          simp [hchunk]
        · rw [scan_loop_step_unaligned specy h spc oracle D junk yend fuel y first acc
            hylt hinvz hchunk]
          rw [Bool.true_and]
          by_cases hcase : spc - Int.tmod (y - specy) spc ≤ yend - y
          · have heq : y + min (spc - Int.tmod (y - specy) spc) (yend - y)
                = y - Int.tmod (y - specy) spc + spc := by omega
            rw [heq]
            exact ih (y - Int.tmod (y - specy) spc + spc) false _ (by omega) (by omega)
          · have heq : y + min (spc - Int.tmod (y - specy) spc) (yend - y) = yend := by omega
            rw [heq]
            rw [scan_loop_true_of_done specy h spc oracle D junk yend fuel yend false _
              (by omega) hfuel1]
            rw [chunksAllOK_true_of_done specy spc oracle yend fuel
              (y - Int.tmod (y - specy) spc + spc) false (by omega) hfuel1]
    · rw [scan_loop_true_of_done specy h spc oracle D junk yend (fuel + 1) y first acc hylt
        (by omega)]
      rw [chunksAllOK_true_of_done specy spc oracle yend (fuel + 1) y first hylt (by omega)]

theorem scan_loop_rows_decoded {β : Type _} (specy h spc : Int)
    (oracle : Int → DecodeStage → Bool) (D junk : Int → β) (yend : Int)
    (hspc : 0 < spc) (hyh : yend ≤ specy + h) :
    ∀ (fuel : Nat) (y : Int) (first : Bool) (acc : List β), specy ≤ y →
      ∃ n : Nat, (read_native_scanlines_loop specy h spc oracle D junk yend fuel y first acc).2
        = acc ++ intRangeMap D y n := by
  intro fuel
  induction fuel with
  | zero =>
    intro y first acc hy
    exact ⟨0, by simp [read_native_scanlines_loop, intRangeMap]⟩
  | succ fuel ih =>
    intro y first acc hy
    by_cases hylt : y < yend
    · have hinv0 : 0 ≤ Int.tmod (y - specy) spc := Int.tmod_nonneg spc (by omega)
      have hinvlt : Int.tmod (y - specy) spc < spc := Int.tmod_lt_of_pos (y - specy) hspc
      by_cases hinvz : Int.tmod (y - specy) spc = 0
      · by_cases hmid : y + spc > yend ∧ y + spc < specy + h
        · cases hchunk : scanChunkOK oracle first y
          · rw [scan_loop_step_mid_fail specy h spc oracle D junk yend fuel y first acc
              hylt hinvz hmid.1 hmid.2 hchunk]
            exact ⟨0, by simp [intRangeMap]⟩
          · rw [scan_loop_step_mid specy h spc oracle D junk yend fuel y first acc
              hylt hinvz hmid.1 hmid.2 hchunk]
            obtain ⟨n2, hn2⟩ := ih yend false
              (acc ++ intRangeMap (chunkRow specy h D junk) y (yend - y).toNat) (by omega)
            have hcg : intRangeMap (chunkRow specy h D junk) y (yend - y).toNat
                = intRangeMap D y (yend - y).toNat := by
              apply intRangeMap_congr
              intro i h1 h2
              unfold chunkRow
              rw [if_pos ⟨by omega, by omega⟩]
            refine ⟨(yend - y).toNat + n2, ?_⟩
            rw [hn2, hcg, List.append_assoc]
            have hcast : ((yend - y).toNat : Int) = yend - y := Int.toNat_of_nonneg (by omega)
            have happ := intRangeMap_append D (yend - y).toNat y n2
            rw [hcast] at happ
            have hy2 : y + (yend - y) = yend := by ring
            rw [hy2] at happ
            rw [happ]
        · cases hchunk : scanChunkOK oracle first y
          · rw [scan_loop_step_direct_fail specy h spc oracle D junk yend fuel y first acc
              hylt hinvz hmid hchunk]
            exact ⟨0, by simp [intRangeMap]⟩
          · rw [scan_loop_step_direct specy h spc oracle D junk yend fuel y first acc
              hylt hinvz hmid hchunk]
            by_cases hfit : spc ≤ specy + h - y
            · have hmin : min spc (specy + h - y) = spc := by omega
              rw [hmin]
              obtain ⟨n2, hn2⟩ := ih (y + spc) false
                (acc ++ intRangeMap D y spc.toNat) (by omega)
              refine ⟨spc.toNat + n2, ?_⟩
              rw [hn2, List.append_assoc]
              have hcast : (spc.toNat : Int) = spc := Int.toNat_of_nonneg (by omega)
              have happ := intRangeMap_append D spc.toNat y n2
              rw [hcast] at happ
              rw [happ]
            · have hmin : min spc (specy + h - y) = specy + h - y := by omega
              rw [hmin]
              refine ⟨(specy + h - y).toNat, ?_⟩
              rw [scan_loop_done specy h spc oracle D junk yend fuel (y + spc) false _
                (by omega)]
      · cases hchunk : scanChunkOK oracle first (y - Int.tmod (y - specy) spc)
        · rw [scan_loop_step_unaligned_fail specy h spc oracle D junk yend fuel y first acc
            hylt hinvz hchunk]
          exact ⟨0, by simp [intRangeMap]⟩
        · rw [scan_loop_step_unaligned specy h spc oracle D junk yend fuel y first acc
            hylt hinvz hchunk]
          set nl := min (spc - Int.tmod (y - specy) spc) (yend - y) with hnl
          have hnl1 : 1 ≤ nl := by omega
          have hnlyend : y + nl ≤ yend := by omega
          obtain ⟨n2, hn2⟩ := ih (y + nl) false
            (acc ++ intRangeMap (chunkRow specy h D junk) y nl.toNat) (by omega)
          have hcast : (nl.toNat : Int) = nl := Int.toNat_of_nonneg (by omega)
          have hcg : intRangeMap (chunkRow specy h D junk) y nl.toNat
              = intRangeMap D y nl.toNat := by
            apply intRangeMap_congr
            intro i h1 h2
            unfold chunkRow
            rw [hcast] at h2
            rw [if_pos ⟨by omega, by omega⟩]
          refine ⟨nl.toNat + n2, ?_⟩
          rw [hn2, hcg, List.append_assoc]
          have happ := intRangeMap_append D nl.toNat y n2
          rw [hcast] at happ
          rw [happ]
    · refine ⟨0, ?_⟩
      rw [scan_loop_done specy h spc oracle D junk yend (fuel + 1) y first acc hylt]
      simp [intRangeMap]

/-- C8: during a scanline read, any codec failure — block-info lookup,
pipeline initialize/update, routine selection, or decode run, for any chunk
of the grid covering the request — makes the whole call return false: the
result is true exactly when every consulted codec call of every chunk
succeeds (chunksAllOK); and the caller buffer only ever receives decoded
rows (a prefix of the image data from ybegin on) — no missing-data fill is
attempted on the scanline path. -/
theorem C8_scanline_failures_abort {β : Type _} (specy h spc : Int)
    (oracle : Int → DecodeStage → Bool) (D junk : Int → β) (ybegin yend : Int)
    (hspc : 0 < spc) (hy : specy ≤ ybegin) (hyh : yend ≤ specy + h) :
    ((read_native_scanlines specy h spc oracle D junk ybegin yend).1
        = chunksAllOK specy spc oracle yend ((yend - ybegin).toNat + 1) ybegin true)
    ∧ (∃ n : Nat, (read_native_scanlines specy h spc oracle D junk ybegin yend).2
        = intRangeMap D ybegin n) := by
  constructor
  · exact scan_loop_ok_eq specy h spc oracle D junk yend hspc
      ((yend - ybegin).toNat + 1) ybegin true [] hy (by omega)
  · obtain ⟨n, hn⟩ := scan_loop_rows_decoded specy h spc oracle D junk yend hspc hyh
      ((yend - ybegin).toNat + 1) ybegin true [] hy
    refine ⟨n, ?_⟩
    show (read_native_scanlines_loop specy h spc oracle D junk yend
      ((yend - ybegin).toNat + 1) ybegin true []).2 = _
    rw [hn]
    rw [List.nil_append]

/-- Witness for C8_scanline_failures_abort: image rows [0,16), 4 scanlines
per chunk, request [5,12), with the codec failing the decode run of the
chunk starting at scanline 8: the call returns false (= chunksAllOK of that
oracle) and the delivered rows are a decoded prefix. -/
theorem C8_scanline_failures_abort_witness :
    (0 : Int) < 4 ∧ (0 : Int) ≤ 5 ∧ (12 : Int) ≤ 0 + 16
    ∧ ((read_native_scanlines 0 16 4
          (fun c s => !(c == 8 && s == DecodeStage.run)) (fun r => r)
          (fun _ => (-999 : Int)) 5 12).1
        = chunksAllOK 0 4 (fun c s => !(c == 8 && s == DecodeStage.run)) 12
            (((12 : Int) - 5).toNat + 1) 5 true)
    ∧ (∃ n : Nat, (read_native_scanlines 0 16 4
          (fun c s => !(c == 8 && s == DecodeStage.run)) (fun r => r)
          (fun _ => (-999 : Int)) 5 12).2
        = intRangeMap (fun r => r) 5 n) := by
  have hm := C8_scanline_failures_abort 0 16 4
    (fun c s => !(c == 8 && s == DecodeStage.run)) (fun r => r)
    (fun _ => (-999 : Int)) 5 12 (by decide) (by decide) (by decide)
  exact ⟨by decide, by decide, by decide, hm.1, hm.2⟩

/-- C3: for a scanline read whose start is not aligned to the codec's
scanlines-per-chunk boundary, the whole containing chunk is decoded into a
scratch buffer and only the requested rows are copied out, so the rows
delivered for [ybegin, yend) are identical to those obtained by reading a
chunk-aligned superset [cb, ce) and slicing out rows ybegin .. yend-1 —
even with different scratch-buffer garbage in the two calls. -/
theorem C3_unaligned_range_equivalence {β : Type _} (specy h spc : Int)
    (oracle1 oracle2 : Int → DecodeStage → Bool) (D junk1 junk2 : Int → β)
    (ybegin yend cb ce : Int)
    (hspc : 0 < spc) (hy : specy ≤ ybegin) (hylt : ybegin < yend) (hyh : yend ≤ specy + h)
    (hunal : Int.tmod (ybegin - specy) spc ≠ 0)
    (hok1 : ∀ c s, oracle1 c s = true) (hok2 : ∀ c s, oracle2 c s = true)
    (hcb0 : specy ≤ cb) (hcbal : Int.tmod (cb - specy) spc = 0)
    (hcb : cb ≤ ybegin) (hce : yend ≤ ce) (hceh : ce ≤ specy + h) :
    ((read_native_scanlines specy h spc oracle1 D junk1 ybegin yend).2).take
        (yend - ybegin).toNat
      = (((read_native_scanlines specy h spc oracle2 D junk2 cb ce).2).drop
          (ybegin - cb).toNat).take (yend - ybegin).toNat := by
  obtain ⟨e1, he11, he12⟩ := scan_loop_success specy h spc oracle1 D junk1 yend hok1 hspc hyh
    ((yend - ybegin).toNat + 1) ybegin true [] hy (by omega)
  obtain ⟨e2, he21, he22⟩ := scan_loop_success specy h spc oracle2 D junk2 ce hok2 hspc hceh
    ((ce - cb).toNat + 1) cb true [] hcb0 (by omega)
  have hr1 : (read_native_scanlines specy h spc oracle1 D junk1 ybegin yend).2
      = intRangeMap D ybegin (e1 - ybegin).toNat := by
    show (read_native_scanlines_loop specy h spc oracle1 D junk1 yend
      ((yend - ybegin).toNat + 1) ybegin true []).2 = _
    rw [he12]
    rw [List.nil_append]
  have hr2 : (read_native_scanlines specy h spc oracle2 D junk2 cb ce).2
      = intRangeMap D cb (e2 - cb).toNat := by
    show (read_native_scanlines_loop specy h spc oracle2 D junk2 ce
      ((ce - cb).toNat + 1) cb true []).2 = _
    rw [he22]
    rw [List.nil_append]
  rw [hr1, hr2]
  rw [intRangeMap_take, intRangeMap_drop, intRangeMap_take]
  have hc1 : cb + (((ybegin - cb).toNat : Nat) : Int) = ybegin := by
    have : (((ybegin - cb).toNat : Nat) : Int) = ybegin - cb := Int.toNat_of_nonneg (by omega)
    omega
  rw [hc1]
  have hm1 : min (yend - ybegin).toNat (e1 - ybegin).toNat = (yend - ybegin).toNat := by
    omega
  have hm2 : min (yend - ybegin).toNat ((e2 - cb).toNat - (ybegin - cb).toNat)
      = (yend - ybegin).toNat := by
    omega
  rw [hm1, hm2]

/-- Witness for C3_unaligned_range_equivalence: the spec's example — 4
scanlines per chunk, image rows [0,16), reading [5,12) versus reading the
chunk-aligned superset [4,16) and slicing, with different scratch garbage
in the two calls. -/
theorem C3_unaligned_range_equivalence_witness :
    (0 : Int) < 4 ∧ (0 : Int) ≤ 5 ∧ (5 : Int) < 12 ∧ (12 : Int) ≤ 0 + 16
    ∧ Int.tmod ((5 : Int) - 0) 4 ≠ 0 ∧ Int.tmod ((4 : Int) - 0) 4 = 0
    ∧ (∀ (c : Int) (s : DecodeStage), (fun (_ : Int) (_ : DecodeStage) => true) c s = true)
    ∧ ((read_native_scanlines 0 16 4 (fun _ _ => true) (fun r => r)
          (fun _ => (-999 : Int)) 5 12).2).take ((12 : Int) - 5).toNat
      = (((read_native_scanlines 0 16 4 (fun _ _ => true) (fun r => r)
          (fun _ => (-777 : Int)) 4 16).2).drop ((5 : Int) - 4).toNat).take
            ((12 : Int) - 5).toNat := by
  refine ⟨by decide, by decide, by decide, by decide, by decide, by decide,
    fun _ _ => rfl, ?_⟩
  exact C3_unaligned_range_equivalence 0 16 4 (fun _ _ => true) (fun _ _ => true)
    (fun r => r) (fun _ => (-999 : Int)) (fun _ => (-777 : Int)) 5 12 4 16
    (by decide) (by decide) (by decide) (by decide) (by decide)
    (fun _ _ => rfl) (fun _ _ => rfl)
    (by decide) (by decide) (by decide) (by decide) (by decide)

end OpenEXRCore
